import Mathlib

/-!
The browser-side formatting and sidebar code of chatbot-allenamento

A shallow embedding of `app/static/js/chat.js` (class `ChatManager`) and of
`app/static/js/workout_display.js` (`WorkoutDisplayManager.exportWorkoutAsText`).

* A JavaScript string is a list of characters (`JSString`).
* `String.prototype.replace` with a global regular expression is `replaceAll`, on top of
  a backtracking matcher `Re.m` written in continuation-passing style, the way
  ECMA-262 defines pattern semantics (`RepeatMatcher` is `repLoop`).
* The DOM is the part of the tree the methods query: the children of `#chatList`, the
  children of `#chatContainer`, and the workout card with its days, tables and rows.
-/

namespace ChatbotAllenamento

/-! ## Strings -/

/-- A JavaScript string, as the list of its characters. -/
abbrev JSString := List Char

/-- ECMA-262 `LineTerminator`: LF, CR, LS, PS. -/
def isLineTerminator (c : Char) : Bool :=
  c == '\n' || c == '\r' || c == '\u2028' || c == '\u2029'

/-- ECMA-262 `WhiteSpace` or `LineTerminator`: what `\s` matches and what `trim` strips. -/
def isWhiteSpace (c : Char) : Bool :=
  c == '\t' || c == '\n' || c == '\x0b' || c == '\x0c' || c == '\r' || c == ' ' ||
  c == '\u00a0' || c == '\u1680' || (0x2000 ≤ c.toNat && c.toNat ≤ 0x200a) ||
  c == '\u2028' || c == '\u2029' || c == '\u202f' || c == '\u205f' || c == '\u3000' ||
  c == '\ufeff'

/-- The method `String.prototype.trim`. -/
def trim (s : JSString) : JSString :=
  ((s.dropWhile isWhiteSpace).reverse.dropWhile isWhiteSpace).reverse

/-- The method `String.prototype.split` with a one-character separator: `split '|' "a|b" = ["a", "b"]`,
and the empty string splits into one empty piece. -/
def split (sep : Char) : JSString → List JSString
  | [] => [[]]
  | c :: cs =>
    if c = sep then [] :: split sep cs
    else match split sep cs with
      | [] => [[c]]
      | w :: ws => (c :: w) :: ws

/-- The method `String.prototype.includes`. -/
def includes (s t : JSString) : Bool :=
  match s with
  | [] => t.isEmpty
  | c :: cs => t.isPrefixOf (c :: cs) || includes cs t

/-! ## Regular expressions -/

/-- An item of a character class `[...]`. -/
inductive ClassItem where
  | ch (c : Char)
  | space
  deriving Repr

/-- The fragment of the regular-expression syntax that the two scripts use.
A non-capturing group `(?:r)` is `r` itself. -/
inductive Re where
  | char (c : Char)
  | dot
  | cls (items : List ClassItem)
  | bol
  | eol
  | cat (a b : Re)
  | group (i : Nat) (r : Re)
  | rep (min : Nat) (max : Option Nat) (greedy : Bool) (r : Re)
  deriving Repr

/-- The flags `m` (multiline) and `s` (dotAll); every expression of the scripts has `g`. -/
structure Flags where
  multiline : Bool
  dotAll : Bool

/-- A match state: the characters before the current position (nearest first), the
characters from the current position on, and the captures recorded so far (newest first). -/
structure MState where
  before : List Char
  after : List Char
  caps : List (Nat × JSString)

/-- A matcher continuation. -/
abbrev Cont := MState → Option MState

def ClassItem.test : ClassItem → Char → Bool
  | .ch c, x => x == c
  | .space, x => isWhiteSpace x

/-- Consume one character that satisfies `p`. -/
def stepChar (p : Char → Bool) (k : Cont) (s : MState) : Option MState :=
  match s.after with
  | [] => none
  | x :: xs => if p x then k { s with before := x :: s.before, after := xs } else none

/-- ECMA-262 `RepeatMatcher`: `body` repeated between `min` and `max` times. An iteration
that consumes nothing once `min` is reached is rejected. No pattern of the scripts has a
group inside a repeated part, so there are no captures to reset between iterations. `fuel`
bounds the number of iterations; `Re.m` passes more than can be used (`m_rep_fuel`). -/
def repLoop (body : Cont → MState → Option MState) :
    Nat → Nat → Option Nat → Bool → Cont → MState → Option MState
  | 0, _, _, _, _, _ => none
  | fuel + 1, min, max, greedy, k, s =>
    if max = some 0 then k s
    else
      let d : Cont := fun y =>
        if min = 0 ∧ y.after.length = s.after.length then none
        else repLoop body fuel (min - 1) (max.map (· - 1)) greedy k y
      if min ≠ 0 then body d s
      else if greedy then
        match body d s with
        | some r => some r
        | none => k s
      else
        match k s with
        | some r => some r
        | none => body d s

/-- The backtracking matcher of a pattern: `r.m fl k s` matches `r` at the state `s` and
hands every candidate end state to `k`, first candidate first. -/
def Re.m (fl : Flags) : Re → Cont → MState → Option MState
  | .char c => stepChar (· == c)
  | .dot => stepChar (fun x => fl.dotAll || !isLineTerminator x)
  | .cls items => stepChar (fun x => items.any (·.test x))
  | .bol => fun k s =>
    match s.before with
    | [] => k s
    | p :: _ => if fl.multiline && isLineTerminator p then k s else none
  | .eol => fun k s =>
    match s.after with
    | [] => k s
    | x :: _ => if fl.multiline && isLineTerminator x then k s else none
  | .cat a b => fun k s => a.m fl (b.m fl k) s
  | .group i r => fun k s =>
    r.m fl (fun y =>
      k { y with caps :=
            (i, (y.before.take (y.before.length - s.before.length)).reverse) :: y.caps }) s
  | .rep min max greedy r => fun k s =>
    repLoop (r.m fl) (s.after.length + min + 1) min max greedy k s

/-- A literal string as a pattern (non-empty literals only). -/
def Re.lit : List Char → Re
  | [] => .rep 0 (some 0) true .dot
  | [c] => .char c
  | c :: cs => .cat (.char c) (Re.lit cs)

/-- The text of capture `i` of a finished match; a group that did not take part gives the
empty string, as `$i` does in a replacement. -/
def capture (caps : List (Nat × JSString)) (i : Nat) : JSString :=
  match caps.lookup i with
  | some t => t
  | none => []

/-- One attempt to match `re` at the position after `before`. -/
def matchAt (fl : Flags) (re : Re) (before after : List Char) : Option MState :=
  re.m fl some ⟨before, after, []⟩

/-- The loop of `String.prototype.replace` for a global pattern, at the position after
`before`: `skip` counts the characters of the current match still to be dropped. After an
empty match the position advances by one character. -/
def replaceGo (fl : Flags) (re : Re) (repl : (Nat → JSString) → JSString) :
    List Char → List Char → Nat → JSString
  | before, [], skip =>
    if skip = 0 then
      match matchAt fl re before [] with
      | some y => repl (capture y.caps)
      | none => []
    else []
  | before, c :: cs, 0 =>
    match matchAt fl re before (c :: cs) with
    | some y =>
      repl (capture y.caps) ++
        (if (c :: cs).length - y.after.length = 0 then
          c :: replaceGo fl re repl (c :: before) cs 0
        else replaceGo fl re repl (c :: before) cs ((c :: cs).length - y.after.length - 1))
    | none => c :: replaceGo fl re repl (c :: before) cs 0
  | before, c :: cs, skip + 1 => replaceGo fl re repl (c :: before) cs skip

/-- The method `content.replace(re, repl)` for a pattern with the `g` flag. -/
def replaceAll (fl : Flags) (re : Re) (repl : (Nat → JSString) → JSString)
    (content : JSString) : JSString :=
  replaceGo fl re repl [] content 0

/-! ## chat.js: the patterns -/

def flagsG : Flags := ⟨false, false⟩
def flagsGM : Flags := ⟨true, false⟩
def flagsGS : Flags := ⟨false, true⟩

/-- The lazy group `(.*?)`. -/
def lazyDots : Re := .group 1 (.rep 0 none false .dot)

/-- The pattern `\*\*(.*?)\*\*` with the flags `g`. -/
def strongRe : Re :=
  .cat (.char '*') (.cat (.char '*') (.cat lazyDots (.cat (.char '*') (.char '*'))))

/-- The pattern `\*(.*?)\*` with the flags `g`. -/
def emRe : Re := .cat (.char '*') (.cat lazyDots (.char '*'))

/-- The pattern `\n` with the flags `g`. -/
def newlineRe : Re := .char '\n'

/-- The pattern `#{1,6}\s*(.*?)$` with the flags `gm`. -/
def headingRe : Re :=
  .cat (.rep 1 (some 6) true (.char '#'))
    (.cat (.rep 0 none true (.cls [.space])) (.cat lazyDots .eol))

/-- The pattern `- (.*?)$` with the flags `gm`. -/
def itemRe : Re := .cat (Re.lit "- ".toList) (.cat lazyDots .eol)

/-- The pattern `(<li>.*<\/li>)` with the flags `gs`. -/
def listRe : Re :=
  .group 1 (.cat (Re.lit "<li>".toList) (.cat (.rep 0 none true .dot) (Re.lit "</li>".toList)))

/-- The pattern `^# (.*?)$` with the flags `gm`. -/
def h1Re : Re := .cat .bol (.cat (Re.lit "# ".toList) (.cat lazyDots .eol))

/-- The pattern `^## (.*?)$` with the flags `gm`. -/
def h2Re : Re := .cat .bol (.cat (Re.lit "## ".toList) (.cat lazyDots .eol))

/-- The pattern `^### (.*?)$` with the flags `gm`. -/
def h3Re : Re := .cat .bol (.cat (Re.lit "### ".toList) (.cat lazyDots .eol))

/-- The pattern `^- (.*?)$` with the flags `gm`. -/
def lineItemRe : Re := .cat .bol (.cat (Re.lit "- ".toList) (.cat lazyDots .eol))

/-- The row part `(?:\|.*\|\n?)` of `tableRegex`. -/
def tableRowRe : Re :=
  .cat (.char '|') (.cat (.rep 0 none true .dot)
    (.cat (.char '|') (.rep 0 (some 1) true (.char '\n'))))

/-- The rows part `((?:\|.*\|\n?)*)` of `tableRegex`. -/
def tableRowsRe : Re := .group 2 (.rep 0 none true tableRowRe)

/-- The part `\|[-\s\|:]+\|\n((?:\|.*\|\n?)*)` of `tableRegex`: separator line and rows. -/
def tableSepRe : Re :=
  .cat (.char '|') (.cat (.rep 1 none true (.cls [.ch '-', .space, .ch '|', .ch ':']))
    (.cat (.char '|') (.cat (.char '\n') tableRowsRe)))

/-- The pattern `tableRegex`: `\|(.+)\|\n\|[-\s\|:]+\|\n((?:\|.*\|\n?)*)` with the flag `g`. -/
def tableRegex : Re :=
  .cat (.char '|') (.cat (.group 1 (.rep 1 none true .dot))
    (.cat (.char '|') (.cat (.char '\n') tableSepRe)))

/-! ## chat.js: `formatMessageContent` and `formatWorkoutContent` -/

/-- The method `ChatManager.formatMessageContent`. -/
def formatMessageContent (content : JSString) : JSString :=
  let c := replaceAll flagsG strongRe
    (fun g => "<strong>".toList ++ g 1 ++ "</strong>".toList) content
  let c := replaceAll flagsG emRe (fun g => "<em>".toList ++ g 1 ++ "</em>".toList) c
  let c := replaceAll flagsG newlineRe (fun _ => "<br>".toList) c
  let c := replaceAll flagsGM headingRe (fun g => "<h3>".toList ++ g 1 ++ "</h3>".toList) c
  let c := replaceAll flagsGM itemRe (fun g => "<li>".toList ++ g 1 ++ "</li>".toList) c
  replaceAll flagsGS listRe (fun g => "<ul>".toList ++ g 1 ++ "</ul>".toList) c

/-- The cells of a table line: `line.split('|').map(cell => cell.trim()).filter(cell => cell)`. -/
def cellsOf (line : JSString) : List JSString :=
  ((split '|' line).map trim).filter (fun cell => !cell.isEmpty)

/-- The callback given to `formatted.replace(tableRegex, ...)`. -/
def tableCallback (g : Nat → JSString) : JSString :=
  let headers := g 1
  let rows := g 2
  let headerCells := cellsOf headers
  let rowData := (split '\n' (trim rows)).map cellsOf
  let table := "<table class=\"exercise-table\"><thead><tr>".toList
  let table := headerCells.foldl (fun t header => t ++ ("<th>".toList ++ header ++ "</th>".toList)) table
  let table := table ++ "</tr></thead><tbody>".toList
  let table := rowData.foldl (fun t row =>
    let t := t ++ "<tr>".toList
    let t := row.foldl (fun t cell => t ++ ("<td>".toList ++ cell ++ "</td>".toList)) t
    t ++ "</tr>".toList) table
  table ++ "</tbody></table>".toList

/-- The method `ChatManager.formatWorkoutContent`. -/
def formatWorkoutContent (content : JSString) : JSString :=
  let formatted := replaceAll flagsGM h1Re
    (fun g => "<h2 class=\"workout-title\">üèãÔ∏è ".toList ++ g 1 ++ "</h2>".toList) content
  let formatted := replaceAll flagsGM h2Re
    (fun g => "<h3 class=\"workout-section\">".toList ++ g 1 ++ "</h3>".toList) formatted
  let formatted := replaceAll flagsGM h3Re
    (fun g => "<h4 class=\"workout-subsection\">".toList ++ g 1 ++ "</h4>".toList) formatted
  let formatted := replaceAll flagsG strongRe
    (fun g => "<strong>".toList ++ g 1 ++ "</strong>".toList) formatted
  let formatted := replaceAll flagsG emRe
    (fun g => "<em>".toList ++ g 1 ++ "</em>".toList) formatted
  let formatted := replaceAll flagsG tableRegex tableCallback formatted
  let formatted := replaceAll flagsGM lineItemRe
    (fun g => "<li>".toList ++ g 1 ++ "</li>".toList) formatted
  let formatted := replaceAll flagsGS listRe
    (fun g => "<ul>".toList ++ g 1 ++ "</ul>".toList) formatted
  let formatted := replaceAll flagsG newlineRe (fun _ => "<br>".toList) formatted
  "<div class=\"workout-content\">".toList ++ formatted ++ "</div>".toList

/-! ## chat.js: the sidebar and the chat container -/

/-- A chat of the list the backend returns: `chat.id` and `chat.title`. -/
structure Chat where
  id : JSString
  title : JSString

/-- A `div.chat-item` of the sidebar: whether its class list holds `active`, the title
shown in its `.chat-title`, and the text of the `onclick` attribute of its `.delete-chat`
button. -/
structure ChatItem where
  active : Bool
  title : JSString
  onclick : JSString
  deriving DecidableEq

/-- A child of `#chatList` other than `#noChatsMsg`. -/
inductive SideNode where
  | chatItem (it : ChatItem)
  | other (html : JSString)
  deriving DecidableEq

/-- The element `#chatList`: its children before and after the child `#noChatsMsg`, and
`noChatsMsg.style.display`. -/
structure Sidebar where
  beforeMsg : List SideNode
  afterMsg : List SideNode
  noChatsDisplay : JSString

/-- A child of `#chatContainer`: a `div.message`, the `div.loading`, a
`div.welcome-message`, or something else. -/
inductive ChatNode where
  | message (role : JSString) (html : JSString)
  | loading
  | welcome
  | other (html : JSString)
  deriving DecidableEq

/-- The fields of `ChatManager` and the elements they point to. -/
structure ChatManager where
  currentChatId : Option JSString
  currentChatTitle : JSString
  chatContainer : List ChatNode
  chatList : Sidebar

def SideNode.isChatItem : SideNode → Bool
  | .chatItem _ => true
  | .other _ => false

/-- The result of `chatList.querySelectorAll('.chat-item')`, in document order. -/
def Sidebar.chatItems (sb : Sidebar) : List ChatItem :=
  (sb.beforeMsg ++ sb.afterMsg).filterMap
    (fun n => match n with | .chatItem it => some it | .other _ => none)

/-- The element that `renderChatList` builds for one chat, for an id and a title of plain
text: no `&`, `<`, `>`, quote, backslash or line terminator, so that the browser, parsing
the markup given to `innerHTML`, gives the title and the handler text back unchanged and
the handler compiles. Other ids and titles are outside this model. -/
def newChatItem (currentChatId : Option JSString) (chat : Chat) : ChatItem :=
  { active := decide (some chat.id = currentChatId)
    title := chat.title
    onclick := "chatManager.deleteChat('".toList ++ chat.id ++ "')".toList }

/-- The method `ChatManager.renderChatList`. -/
def renderChatList (currentChatId : Option JSString) (chats : List Chat) (sb : Sidebar) :
    Sidebar :=
  if chats.length = 0 then { sb with noChatsDisplay := "block".toList }
  else
    let sb := { sb with noChatsDisplay := "none".toList }
    -- Clear existing chat items
    let sb := { sb with
      beforeMsg := sb.beforeMsg.filter (fun n => !n.isChatItem)
      afterMsg := sb.afterMsg.filter (fun n => !n.isChatItem) }
    chats.foldl (fun sb chat =>
      { sb with beforeMsg := sb.beforeMsg ++ [.chatItem (newChatItem currentChatId chat)] }) sb

/-- The text `deleteBtn.onclick.toString()` for a handler given as an `onclick` attribute. -/
def handlerSource (body : JSString) : JSString :=
  "function onclick(event) \x7b\n".toList ++ body ++ "\n\x7d".toList

/-- The loop body of `updateActiveChatInSidebar` for one item built by `newChatItem`: the
item has its `.delete-chat` button and the button's handler compiled, so `deleteBtn.onclick`
is a function. -/
def updateItem (activeChatId : JSString) (it : ChatItem) : ChatItem :=
  { it with active := includes (handlerSource it.onclick) activeChatId }

def SideNode.mapItem (f : ChatItem → ChatItem) : SideNode → SideNode
  | .chatItem it => .chatItem (f it)
  | .other h => .other h

/-- The method `ChatManager.updateActiveChatInSidebar`. -/
def updateActiveChatInSidebar (activeChatId : JSString) (sb : Sidebar) : Sidebar :=
  { sb with
    beforeMsg := sb.beforeMsg.map (SideNode.mapItem (updateItem activeChatId))
    afterMsg := sb.afterMsg.map (SideNode.mapItem (updateItem activeChatId)) }

/-- The method `ChatManager.clearChat`: removes what `querySelectorAll('.message, .loading')` finds. -/
def clearChat (container : List ChatNode) : List ChatNode :=
  container.filter (fun n => match n with
    | .message _ _ => false
    | .loading => false
    | _ => true)

/-- The method `ChatManager.showWelcomeMessage`. -/
def showWelcomeMessage (container : List ChatNode) : List ChatNode :=
  container ++ [.welcome]

/-- The method `ChatManager.startNewChat` (closing the sidebar on a narrow window and focusing the
input touch nothing of this state). -/
def startNewChat (cm : ChatManager) : ChatManager :=
  let cm := { cm with chatContainer := clearChat cm.chatContainer }
  let cm := { cm with currentChatId := none }
  let cm := { cm with currentChatTitle := "Nuova Chat".toList }
  let cm := { cm with chatList := { cm.chatList with
    beforeMsg := cm.chatList.beforeMsg.map (SideNode.mapItem (fun it => { it with active := false }))
    afterMsg := cm.chatList.afterMsg.map (SideNode.mapItem (fun it => { it with active := false })) } }
  { cm with chatContainer := showWelcomeMessage cm.chatContainer }

/-! ## workout_display.js: `exportWorkoutAsText` -/

/-- A `.workout-day` element: the text of its first `h3`, if it has one, and its
`.exercise-table` elements in document order, each as the list of its `tbody tr` rows, a
row being the list of the texts of its `td` cells. -/
structure WorkoutDay where
  h3 : Option JSString
  tables : List (List (List JSString))

/-- A workout card: the text of its `.workout-title`, if it has one, the texts of the
`li` items of its `.profile-section`, if it has one, and its `.workout-day` elements. -/
structure WorkoutCard where
  title : Option JSString
  profile : Option (List JSString)
  days : List WorkoutDay

/-- The expression `a?.textContent || dflt`: the text unless the element is missing or its text is empty. -/
def textOr (a : Option JSString) (dflt : JSString) : JSString :=
  match a with
  | some t => if t.isEmpty then dflt else t
  | none => dflt

/-- The loop body of `rows.forEach` in `exportWorkoutAsText`. -/
def exportRow (textContent : JSString) (cells : List JSString) : JSString :=
  if cells.length ≥ 4 then
    let name := trim (cells.getD 0 [])
    let sets := trim (cells.getD 1 [])
    let reps := trim (cells.getD 2 [])
    let rest := trim (cells.getD 3 [])
    textContent ++ (name ++ " - ".toList ++ sets ++ " serie x ".toList ++ reps ++
      " rep (".toList ++ rest ++ ")\n".toList)
  else textContent

/-- The loop body of `workoutDays.forEach` in `exportWorkoutAsText`. -/
def exportDay (textContent : JSString) (day : WorkoutDay) : JSString :=
  let dayTitle := textOr day.h3 []
  let textContent := textContent ++ (dayTitle ++ "\n".toList ++ List.replicate 30 '-' ++ "\n".toList)
  let textContent :=
    match day.tables.head? with
    | some rows => rows.foldl exportRow textContent
    | none => textContent
  textContent ++ "\n".toList

/-- The method `WorkoutDisplayManager.exportWorkoutAsText`: the text put into the downloaded file. -/
def exportWorkoutAsText (card : WorkoutCard) : JSString :=
  let title := textOr card.title "Scheda Allenamento".toList
  let textContent := title ++ "\n".toList ++ List.replicate 50 '=' ++ "\n\n".toList
  let textContent :=
    match card.profile with
    | some profileItems =>
      let textContent := textContent ++ "PROFILO UTENTE:\n".toList
      let textContent := profileItems.foldl
        (fun t item => t ++ ("• ".toList ++ item ++ "\n".toList)) textContent
      textContent ++ "\n".toList
    | none => textContent
  card.days.foldl exportDay textContent

/-! ## The export, as the specification words it -/

/-- The line of one exercise: `name - sets serie x reps rep (rest)`. -/
def exerciseLine (cells : List JSString) : JSString :=
  trim (cells.getD 0 []) ++ " - ".toList ++ trim (cells.getD 1 []) ++ " serie x ".toList ++
    trim (cells.getD 2 []) ++ " rep (".toList ++ trim (cells.getD 3 []) ++ ")".toList

/-- The title of a day: the text of its `h3`, and the empty text for a day without one. -/
def dayTitle (day : WorkoutDay) : JSString := day.h3.getD []

/-- The lines of one day as the specification has them: its title, thirty dashes, and one
line per table body row of the day that has at least four cells, whatever table of the day
the row stands in. -/
def claimedDayLines (day : WorkoutDay) : List JSString :=
  dayTitle day :: List.replicate 30 '-' ::
    (day.tables.flatten.filter (fun cells => 4 ≤ cells.length)).map exerciseLine

/-- The lines of one day: its title, thirty dashes, and one line per row with at least four
cells of the first exercise table of the day. -/
def dayLines (day : WorkoutDay) : List JSString :=
  dayTitle day :: List.replicate 30 '-' ::
    ((day.tables.head?.getD []).filter (fun cells => 4 ≤ cells.length)).map exerciseLine

/-- A card with one day `G1` of two exercise tables: the first has no row, the second the
row `Squat`, `3`, `8`, `60s`. -/
def twoTableCard : WorkoutCard :=
  { title := none
    profile := none
    days := [{ h3 := some "G1".toList
               tables := [[], [["Squat".toList, "3".toList, "8".toList, "60s".toList]]] }] }

/-- Lines written one after the other, each closed by a line feed. -/
def writeLines : List JSString → JSString
  | [] => []
  | l :: ls => l ++ '\n' :: writeLines ls

/-! ## Markdown tables and their HTML, as the specification words them -/

/-- A table cell: a non-empty string of ASCII letters and digits. -/
def Cell (c : JSString) : Prop := c ≠ [] ∧ ∀ x ∈ c, x.isAlphanum = true

/-- The cells of a table line after its first `|`: ` c1 | c2 |`. -/
def cellsText : List JSString → JSString
  | [] => []
  | c :: cs => ' ' :: (c ++ ' ' :: '|' :: cellsText cs)

/-- A table line `| c1 | c2 |`. -/
def mdLine (cells : List JSString) : JSString := '|' :: cellsText cells

/-- A table line without its first and its last `|`: ` c1 | c2 `. -/
def lineInner : List JSString → JSString
  | [] => []
  | [c] => ' ' :: (c ++ [' '])
  | c :: cs => ' ' :: (c ++ ' ' :: '|' :: lineInner cs)

/-- Every `<` of the text is followed by `t` or by `/`, as in the tags of a table. -/
def okLT : List Char → Bool
  | [] => true
  | [c] => c != '<'
  | c :: d :: r => (c != '<' || d == 't' || d == '/') && okLT (d :: r)

/-- The separator line `|---|---|`, one `---|` per header cell. -/
def sepLine (cells : List JSString) : JSString :=
  '|' :: (cells.map (fun _ => "---|".toList)).flatten

/-- The call `lines.join('\n')`. -/
def joinLines : List JSString → JSString
  | [] => []
  | [l] => l
  | l :: ls => l ++ '\n' :: joinLines ls

/-- A markdown table: header line, separator line, one line per data row. -/
def mdTable (headers : List JSString) (rows : List (List JSString)) : JSString :=
  joinLines (mdLine headers :: sepLine headers :: rows.map mdLine)

/-- One `<th>h</th>` per header cell, in order. -/
def thCells (headers : List JSString) : JSString :=
  (headers.map (fun h => "<th>".toList ++ h ++ "</th>".toList)).flatten

/-- One `<td>c</td>` per cell, in order. -/
def tdCells (row : List JSString) : JSString :=
  (row.map (fun c => "<td>".toList ++ c ++ "</td>".toList)).flatten

/-- One `<tr>...</tr>` per data row, in order. -/
def trRows (rows : List (List JSString)) : JSString :=
  (rows.map (fun row => "<tr>".toList ++ tdCells row ++ "</tr>".toList)).flatten

/-- The HTML table of the given header cells and data rows. -/
def htmlTable (headers : List JSString) (rows : List (List JSString)) : JSString :=
  "<table class=\"exercise-table\"><thead><tr>".toList ++ thCells headers ++
    "</tr></thead><tbody>".toList ++ trRows rows ++ "</tbody></table>".toList

/-! ## Predicates of the proofs and statements -/

/-- Two continuations that agree on every state with at most `n` characters left. -/
def Agree (n : Nat) (k k2 : Cont) : Prop :=
  ∀ y : MState, y.after.length ≤ n → k y = k2 y

/-- A pattern that fails wherever the next character does not satisfy `p`, and at the end
of the input. -/
def NeedsChar (fl : Flags) (p : Char → Bool) (re : Re) : Prop :=
  ∀ (k : Cont) (s : MState), (∀ c ∈ s.after.head?, p c = false) → re.m fl k s = none

/-- What a text must not hold for `formatMessageContent` to leave it alone: `*`, `#`, a line
terminator, `- ` and `</li>`. -/
def Plain (s : JSString) : Prop :=
  '*' ∉ s ∧ '#' ∉ s ∧ (∀ c ∈ s, isLineTerminator c = false) ∧
    ¬ "- ".toList <:+: s ∧ ¬ "</li>".toList <:+: s

/-! ## The matcher, one step at a time -/

theorem stepChar_nil (p : Char → Bool) (k : Cont) (b : List Char) (caps : List (Nat × JSString)) :
    stepChar p k ⟨b, [], caps⟩ = none := rfl

theorem stepChar_cons (p : Char → Bool) (k : Cont) (b : List Char) (x : Char) (xs : List Char)
    (caps : List (Nat × JSString)) :
    stepChar p k ⟨b, x :: xs, caps⟩ = if p x then k ⟨x :: b, xs, caps⟩ else none := rfl

theorem m_char (fl : Flags) (c : Char) : (Re.char c).m fl = stepChar (· == c) := rfl

theorem m_dot (fl : Flags) :
    Re.dot.m fl = stepChar (fun x => fl.dotAll || !isLineTerminator x) := rfl

theorem m_cls (fl : Flags) (items : List ClassItem) :
    (Re.cls items).m fl = stepChar (fun x => items.any (·.test x)) := rfl

theorem m_cat (fl : Flags) (a b : Re) (k : Cont) (s : MState) :
    (Re.cat a b).m fl k s = a.m fl (b.m fl k) s := rfl

theorem m_group (fl : Flags) (i : Nat) (r : Re) (k : Cont) (s : MState) :
    (Re.group i r).m fl k s =
      r.m fl (fun y => k { y with caps :=
        (i, (y.before.take (y.before.length - s.before.length)).reverse) :: y.caps }) s := rfl

theorem m_rep (fl : Flags) (min : Nat) (max : Option Nat) (greedy : Bool) (r : Re) (k : Cont)
    (s : MState) :
    (Re.rep min max greedy r).m fl k s =
      repLoop (r.m fl) (s.after.length + min + 1) min max greedy k s := rfl

theorem m_bol_nil (fl : Flags) (k : Cont) (a : List Char) (caps : List (Nat × JSString)) :
    Re.bol.m fl k ⟨[], a, caps⟩ = k ⟨[], a, caps⟩ := rfl

theorem m_bol_cons (fl : Flags) (k : Cont) (p : Char) (b a : List Char)
    (caps : List (Nat × JSString)) :
    Re.bol.m fl k ⟨p :: b, a, caps⟩ =
      if fl.multiline && isLineTerminator p then k ⟨p :: b, a, caps⟩ else none := rfl

/-- The text a group captures: what was consumed since the group was entered. -/
theorem captured_text (xs b : List Char) :
    ((xs.reverse ++ b).take ((xs.reverse ++ b).length - b.length)).reverse = xs := by
  simp

theorem needsChar_char (fl : Flags) (c : Char) : NeedsChar fl (· == c) (.char c) := by
  intro k s h
  obtain ⟨b, a, caps⟩ := s
  cases a with
  | nil => rfl
  | cons x xs =>
    have hx : (x == c) = false := h x (by simp)
    simp [m_char, stepChar_cons, hx]

theorem needsChar_cat {fl : Flags} {p : Char → Bool} {a : Re} (b : Re)
    (h : NeedsChar fl p a) : NeedsChar fl p (.cat a b) := by
  intro k s hs
  rw [m_cat]
  exact h _ _ hs

theorem needsChar_bol_cat {fl : Flags} {p : Char → Bool} {b : Re}
    (h : NeedsChar fl p b) : NeedsChar fl p (.cat .bol b) := by
  intro k s hs
  obtain ⟨bf, a, caps⟩ := s
  rw [m_cat]
  cases bf with
  | nil => rw [m_bol_nil]; exact h _ _ hs
  | cons q bf =>
    rw [m_bol_cons]
    split
    · exact h _ _ hs
    · rfl

theorem needsChar_group {fl : Flags} {p : Char → Bool} {r : Re} (i : Nat)
    (h : NeedsChar fl p r) : NeedsChar fl p (.group i r) := by
  intro k s hs
  rw [m_group]
  exact h _ _ hs

theorem needsChar_rep_succ {fl : Flags} {p : Char → Bool} {r : Re} (n m : Nat) (greedy : Bool)
    (h : NeedsChar fl p r) : NeedsChar fl p (.rep (n + 1) (some (m + 1)) greedy r) := by
  intro k s hs
  rw [m_rep]
  simp only [repLoop]
  simp [h _ _ hs]

theorem needsChar_lit (fl : Flags) (c d : Char) (cs : List Char) :
    NeedsChar fl (· == c) (Re.lit (c :: d :: cs)) :=
  needsChar_cat _ (needsChar_char fl c)

/-! ## The fuel of `repLoop` is never used up

A matcher hands to its continuation only states that are not behind the state it started
from, so `repLoop` gives the same result for every fuel above the length of the text left
plus `min`, and `Re.m` passes one such fuel. -/

theorem stepChar_local (p : Char → Bool) (k k2 : Cont) (s : MState)
    (h : Agree s.after.length k k2) : stepChar p k s = stepChar p k2 s := by
  obtain ⟨b, a, caps⟩ := s
  cases a with
  | nil => rfl
  | cons x xs =>
    rw [stepChar_cons, stepChar_cons, h ⟨x :: b, xs, caps⟩ (by simp)]

theorem repLoop_local (body : Cont → MState → Option MState)
    (hbody : ∀ k k2 s, Agree s.after.length k k2 → body k s = body k2 s) :
    ∀ (fuel min : Nat) (max : Option Nat) (greedy : Bool) (k k2 : Cont) (s : MState),
      Agree s.after.length k k2 →
      repLoop body fuel min max greedy k s = repLoop body fuel min max greedy k2 s
  | 0, _, _, _, _, _, _, _ => rfl
  | fuel + 1, min, max, greedy, k, k2, s, h => by
    have hd : body (fun y => if min = 0 ∧ y.after.length = s.after.length then none
          else repLoop body fuel (min - 1) (max.map (· - 1)) greedy k y) s =
        body (fun y => if min = 0 ∧ y.after.length = s.after.length then none
          else repLoop body fuel (min - 1) (max.map (· - 1)) greedy k2 y) s := by
      apply hbody
      intro y hy
      simp only []
      rw [repLoop_local body hbody fuel (min - 1) (max.map (· - 1)) greedy k k2 y
        (fun z hz => h z (Nat.le_trans hz hy))]
    simp only [repLoop]
    rw [hd, h s (Nat.le_refl _)]

theorem m_local (fl : Flags) : ∀ (r : Re) (k k2 : Cont) (s : MState),
    Agree s.after.length k k2 → r.m fl k s = r.m fl k2 s
  | .char _, k, k2, s, h => stepChar_local _ k k2 s h
  | .dot, k, k2, s, h => stepChar_local _ k k2 s h
  | .cls _, k, k2, s, h => stepChar_local _ k k2 s h
  | .bol, k, k2, s, h => by
    obtain ⟨b, a, caps⟩ := s
    have hs := h ⟨b, a, caps⟩ (Nat.le_refl _)
    cases b with
    | nil => rw [m_bol_nil, m_bol_nil, hs]
    | cons q b => rw [m_bol_cons, m_bol_cons, hs]
  | .eol, k, k2, s, h => by
    obtain ⟨b, a, caps⟩ := s
    have hs := h ⟨b, a, caps⟩ (Nat.le_refl _)
    cases a with
    | nil => exact hs
    | cons x xs =>
      show (if fl.multiline && isLineTerminator x then k _ else none) =
        (if fl.multiline && isLineTerminator x then k2 _ else none)
      rw [hs]
  | .cat a b, k, k2, s, h => by
    rw [m_cat, m_cat]
    apply m_local fl a
    intro y hy
    exact m_local fl b k k2 y (fun z hz => h z (Nat.le_trans hz hy))
  | .group i r, k, k2, s, h => by
    rw [m_group, m_group]
    apply m_local fl r
    intro y hy
    exact h _ hy
  | .rep min max greedy r, k, k2, s, h => by
    rw [m_rep, m_rep]
    exact repLoop_local _ (m_local fl r) _ _ _ _ k k2 s h

/-- More fuel than the length of the text left plus `min` changes nothing. -/
theorem repLoop_fuel (body : Cont → MState → Option MState)
    (hbody : ∀ k k2 s, Agree s.after.length k k2 → body k s = body k2 s) (extra : Nat) :
    ∀ (fuel min : Nat) (max : Option Nat) (greedy : Bool) (k : Cont) (s : MState),
      s.after.length + min < fuel →
      repLoop body (fuel + extra) min max greedy k s = repLoop body fuel min max greedy k s
  | 0, _, _, _, _, _, hf => absurd hf (Nat.not_lt_zero _)
  | fuel + 1, min, max, greedy, k, s, hf => by
    have hd : body (fun y => if min = 0 ∧ y.after.length = s.after.length then none
          else repLoop body (fuel + extra) (min - 1) (max.map (· - 1)) greedy k y) s =
        body (fun y => if min = 0 ∧ y.after.length = s.after.length then none
          else repLoop body fuel (min - 1) (max.map (· - 1)) greedy k y) s := by
      apply hbody
      intro y hy
      simp only []
      by_cases hc : min = 0 ∧ y.after.length = s.after.length
      · rw [if_pos hc, if_pos hc]
      · rw [if_neg hc, if_neg hc]
        apply repLoop_fuel body hbody extra fuel
        omega
    have e : fuel + 1 + extra = (fuel + extra) + 1 := by omega
    rw [e]
    simp only [repLoop]
    rw [hd]

/-- The quantifier of a pattern has the same result with every fuel above the one that
`Re.m` passes. -/
theorem m_rep_fuel (fl : Flags) (min : Nat) (max : Option Nat) (greedy : Bool) (r : Re)
    (k : Cont) (s : MState) (extra : Nat) :
    repLoop (r.m fl) (s.after.length + min + 1 + extra) min max greedy k s =
      (Re.rep min max greedy r).m fl k s := by
  rw [m_rep]
  exact repLoop_fuel _ (m_local fl r) extra _ _ _ _ _ _ (by omega)

/-! ## The replace loop -/

theorem replaceGo_skip (fl : Flags) (re : Re) (repl : (Nat → JSString) → JSString) :
    ∀ (xs before rest : List Char),
      replaceGo fl re repl before (xs ++ rest) xs.length =
        replaceGo fl re repl (xs.reverse ++ before) rest 0
  | [], before, rest => by simp
  | x :: xs, before, rest => by
    have ih := replaceGo_skip fl re repl xs (x :: before) rest
    show replaceGo fl re repl before (x :: (xs ++ rest)) (xs.length + 1) = _
    rw [replaceGo, ih]
    simp

theorem replaceGo_step (fl : Flags) (re : Re) (repl : (Nat → JSString) → JSString)
    (before : List Char) (c : Char) (cs : List Char)
    (h : matchAt fl re before (c :: cs) = none) :
    replaceGo fl re repl before (c :: cs) 0 = c :: replaceGo fl re repl (c :: before) cs 0 := by
  rw [replaceGo, h]

theorem replaceGo_nil (fl : Flags) (re : Re) (repl : (Nat → JSString) → JSString)
    (before : List Char) (h : matchAt fl re before [] = none) :
    replaceGo fl re repl before [] 0 = [] := by
  simp [replaceGo, h]

theorem replaceGo_needsChar {fl : Flags} {p : Char → Bool} {re : Re}
    (repl : (Nat → JSString) → JSString) (h : NeedsChar fl p re) :
    ∀ (xs before rest : List Char), (∀ c ∈ xs, p c = false) →
      replaceGo fl re repl before (xs ++ rest) 0 =
        xs ++ replaceGo fl re repl (xs.reverse ++ before) rest 0
  | [], before, rest, _ => by simp
  | x :: xs, before, rest, hx => by
    have hm : matchAt fl re before (x :: (xs ++ rest)) = none :=
      h _ _ (by simpa using hx x (by simp))
    rw [List.cons_append, replaceGo_step _ _ _ _ _ _ hm,
      replaceGo_needsChar repl h xs (x :: before) rest (fun c hc => hx c (by simp [hc]))]
    simp

theorem replaceGo_needsChar_nil {fl : Flags} {p : Char → Bool} {re : Re}
    (repl : (Nat → JSString) → JSString) (h : NeedsChar fl p re) (before : List Char) :
    replaceGo fl re repl before [] 0 = [] :=
  replaceGo_nil _ _ _ _ (h _ _ (by simp))

/-- A pattern that needs a character the text does not hold leaves the text as it is. -/
theorem replaceAll_needsChar {fl : Flags} {p : Char → Bool} {re : Re}
    (repl : (Nat → JSString) → JSString) (h : NeedsChar fl p re) (xs : List Char)
    (hx : ∀ c ∈ xs, p c = false) : replaceAll fl re repl xs = xs := by
  have := replaceGo_needsChar repl h xs [] [] hx
  rw [List.append_nil] at this
  rw [replaceAll, this, replaceGo_needsChar_nil repl h]
  simp

theorem replaceGo_noMatch (fl : Flags) (re : Re) (repl : (Nat → JSString) → JSString) :
    ∀ (xs before : List Char),
      (∀ pre post, xs = pre ++ post → matchAt fl re (pre.reverse ++ before) post = none) →
      replaceGo fl re repl before xs 0 = xs
  | [], before, h => replaceGo_nil _ _ _ _ (by simpa using h [] [] rfl)
  | x :: xs, before, h => by
    rw [replaceGo_step _ _ _ _ _ _ (by simpa using h [] (x :: xs) rfl),
      replaceGo_noMatch fl re repl xs (x :: before)]
    intro pre post hp
    have := h (x :: pre) post (by simp [hp])
    simpa using this

/-- A pattern that matches at no position of the text leaves the text as it is. -/
theorem replaceAll_noMatch (fl : Flags) (re : Re) (repl : (Nat → JSString) → JSString)
    (xs : List Char)
    (h : ∀ pre post, xs = pre ++ post → matchAt fl re pre.reverse post = none) :
    replaceAll fl re repl xs = xs :=
  replaceGo_noMatch fl re repl xs [] (by simpa using h)

/-- One match of the non-empty text `M` at the current position: the replacement is
written and the loop goes on after `M`. -/
theorem replaceGo_match (fl : Flags) (re : Re) (repl : (Nat → JSString) → JSString)
    (before M rest : List Char) (y : MState) (hM : M ≠ [])
    (hm : matchAt fl re before (M ++ rest) = some y) (hy : y.after = rest) :
    replaceGo fl re repl before (M ++ rest) 0 =
      repl (capture y.caps) ++ replaceGo fl re repl (M.reverse ++ before) rest 0 := by
  cases M with
  | nil => exact absurd rfl hM
  | cons c cs =>
    rw [List.cons_append] at hm ⊢
    rw [replaceGo, hm]
    have hlen : (c :: (cs ++ rest)).length - y.after.length = cs.length + 1 := by
      simp [hy]; omega
    simp only [hlen, Nat.succ_ne_zero, if_false, Nat.add_sub_cancel]
    rw [replaceGo_skip]
    simp

/-! ## Repetition of a one-character pattern -/

/-- A lazy `*` over a one-character pattern stops at the first position where the rest of
the pattern matches. -/
theorem repLoop_lazy (p : Char → Bool) (k : Cont) (r : MState) (zs : List Char)
    (caps : List (Nat × JSString)) :
    ∀ (xs b : List Char) (fuel : Nat), xs.length < fuel → (∀ c ∈ xs, p c = true) →
      (∀ pre post, xs = pre ++ post → post ≠ [] →
        k ⟨pre.reverse ++ b, post ++ zs, caps⟩ = none) →
      k ⟨xs.reverse ++ b, zs, caps⟩ = some r →
      repLoop (stepChar p) fuel 0 none false k ⟨b, xs ++ zs, caps⟩ = some r
  | _, _, 0, hf, _, _, _ => absurd hf (Nat.not_lt_zero _)
  | [], b, fuel + 1, _, _, _, hk => by
    simp only [repLoop]
    simp at hk
    simp [hk]
  | x :: xs, b, fuel + 1, hf, hp, hfail, hk => by
    have h0 : k ⟨b, x :: (xs ++ zs), caps⟩ = none := by
      simpa using hfail [] (x :: xs) rfl (by simp)
    have ih := repLoop_lazy p k r zs caps xs (x :: b) fuel
      (by simpa using hf) (fun c hc => hp c (by simp [hc]))
      (fun pre post h hne => by
        have := hfail (x :: pre) post (by simp [h]) hne
        simpa using this)
      (by simpa using hk)
    simp only [repLoop, List.cons_append]
    simp [h0, stepChar_cons, hp x (by simp), ih]

/-- A lazy `*` over a one-character pattern fails when the rest of the pattern matches at
no later position. -/
theorem repLoop_lazy_none (p : Char → Bool) (k : Cont) (caps : List (Nat × JSString)) :
    ∀ (fuel : Nat) (xs b : List Char),
      (∀ pre post, xs = pre ++ post → k ⟨pre.reverse ++ b, post, caps⟩ = none) →
      repLoop (stepChar p) fuel 0 none false k ⟨b, xs, caps⟩ = none
  | 0, _, _, _ => rfl
  | fuel + 1, [], b, h => by
    have h0 : k ⟨b, [], caps⟩ = none := by simpa using h [] [] rfl
    simp only [repLoop]
    simp [h0, stepChar_nil]
  | fuel + 1, x :: xs, b, h => by
    have h0 : k ⟨b, x :: xs, caps⟩ = none := by simpa using h [] (x :: xs) rfl
    have ih := repLoop_lazy_none p k caps fuel xs (x :: b)
      (fun pre post hp => by
        have := h (x :: pre) post (by simp [hp])
        simpa using this)
    simp only [repLoop]
    simp [h0, stepChar_cons, ih]

/-- A greedy `*` over a one-character pattern fails when the rest of the pattern matches at
no later position. -/
theorem repLoop_greedy_none (p : Char → Bool) (k : Cont) (caps : List (Nat × JSString)) :
    ∀ (fuel : Nat) (xs b : List Char),
      (∀ pre post, xs = pre ++ post → k ⟨pre.reverse ++ b, post, caps⟩ = none) →
      repLoop (stepChar p) fuel 0 none true k ⟨b, xs, caps⟩ = none
  | 0, _, _, _ => rfl
  | fuel + 1, [], b, h => by
    have h0 : k ⟨b, [], caps⟩ = none := by simpa using h [] [] rfl
    simp only [repLoop]
    simp [h0, stepChar_nil]
  | fuel + 1, x :: xs, b, h => by
    have h0 : k ⟨b, x :: xs, caps⟩ = none := by simpa using h [] (x :: xs) rfl
    have ih := repLoop_greedy_none p k caps fuel xs (x :: b)
      (fun pre post hp => by
        have := h (x :: pre) post (by simp [hp])
        simpa using this)
    simp only [repLoop]
    simp [h0, stepChar_cons, ih]

/-! ## Literals -/

theorem lit_m (fl : Flags) (k : Cont) (caps : List (Nat × JSString)) (rest : List Char) :
    ∀ (P : List Char) (b : List Char), P ≠ [] →
      (Re.lit P).m fl k ⟨b, P ++ rest, caps⟩ = k ⟨P.reverse ++ b, rest, caps⟩
  | [], _, h => absurd rfl h
  | [c], b, _ => by
    simp [Re.lit, m_char, stepChar_cons]
  | c :: d :: cs, b, _ => by
    have ih := lit_m fl k caps rest (d :: cs) (c :: b) (by simp)
    show (Re.cat (Re.char c) (Re.lit (d :: cs))).m fl k _ = _
    rw [m_cat, m_char]
    simp only [List.cons_append, stepChar_cons, beq_self_eq_true, if_true] at ih ⊢
    rw [ih]
    simp

theorem lit_none (fl : Flags) (k : Cont) (caps : List (Nat × JSString)) :
    ∀ (P : List Char) (b after : List Char), P ≠ [] → ¬ P <+: after →
      (Re.lit P).m fl k ⟨b, after, caps⟩ = none
  | [], _, _, h, _ => absurd rfl h
  | [c], b, after, _, hn => by
    cases after with
    | nil => rfl
    | cons x xs =>
      have hx : x ≠ c := by
        rintro rfl
        exact hn ⟨xs, rfl⟩
      simp [Re.lit, m_char, stepChar_cons, hx]
  | c :: d :: cs, b, after, _, hn => by
    cases after with
    | nil => rfl
    | cons x xs =>
      show (Re.cat (Re.char c) (Re.lit (d :: cs))).m fl k _ = _
      rw [m_cat, m_char, stepChar_cons]
      split
      · rename_i hx
        have hx : x = c := by simpa using hx
        subst hx
        apply lit_none fl k caps (d :: cs) _ xs (by simp)
        rintro ⟨u, hu⟩
        exact hn ⟨u, by simp [← hu]⟩
      · rfl

/-! ## Texts without a given piece -/

/-- No occurrence of `P` straddles `x ++ y` when `y` starts with a character that `P` holds
only in first place. -/
theorem not_infix_append_of_head (P x y : List Char) (hx : ¬ P <:+: x) (hy : ¬ P <:+: y)
    (hh : ∀ c ∈ y.head?, c ∉ P.tail) : ¬ P <:+: x ++ y := by
  rintro ⟨s, u, h⟩
  rcases List.append_eq_append_iff.mp h with ⟨a, hxa, _⟩ | ⟨c, hsc, hyc⟩
  · exact hx ⟨s, a, hxa.symm⟩
  · rcases List.append_eq_append_iff.mp hsc with ⟨a, hxa, hPa⟩ | ⟨c2, _, hc2⟩
    · cases c with
      | nil =>
        rw [List.append_nil] at hPa
        exact hx ⟨s, [], by simp [hxa, hPa]⟩
      | cons d c =>
        cases a with
        | nil => exact hy ⟨[], u, by simp [hyc, hPa]⟩
        | cons e a =>
          apply hh d (by simp [hyc])
          simp [hPa]
    · exact hy ⟨c2, u, by simp [hyc, hc2]⟩

/-- No occurrence of `P` straddles `x ++ y` when `x` ends with a character that `P` holds
only in last place. -/
theorem not_infix_append_of_last (P x y : List Char) (hx : ¬ P <:+: x) (hy : ¬ P <:+: y)
    (hl : ∀ c ∈ x.getLast?, c ∉ P.dropLast) : ¬ P <:+: x ++ y := by
  rintro ⟨s, u, h⟩
  rcases List.append_eq_append_iff.mp h with ⟨a, hxa, _⟩ | ⟨c, hsc, hyc⟩
  · exact hx ⟨s, a, hxa.symm⟩
  · rcases List.append_eq_append_iff.mp hsc with ⟨a, hxa, hPa⟩ | ⟨c2, _, hc2⟩
    · cases c with
      | nil =>
        rw [List.append_nil] at hPa
        exact hx ⟨s, [], by simp [hxa, hPa]⟩
      | cons d c =>
        rcases List.eq_nil_or_concat a with rfl | ⟨a2, e, rfl⟩
        · exact hy ⟨[], u, by simp [hyc, hPa]⟩
        · apply hl e (by simp [hxa])
          rw [hPa, List.dropLast_append_of_ne_nil _ (by simp)]
          simp
    · exact hy ⟨c2, u, by simp [hyc, hc2]⟩

/-- A text put between two tags: `a`, `tag1`, `t`, `tag2`, `b` one after the other hold no
`P` when none of the five does and no tag can take part in a straddling occurrence. -/
theorem not_infix_wrap (P a tag1 t tag2 b : List Char)
    (ha : ¬ P <:+: a) (ht : ¬ P <:+: t) (hb : ¬ P <:+: b)
    (h1 : ¬ P <:+: tag1) (h2 : ¬ P <:+: tag2) (n1 : tag1 ≠ []) (n2 : tag2 ≠ [])
    (hh1 : ∀ c ∈ tag1.head?, c ∉ P.tail) (hl1 : ∀ c ∈ tag1.getLast?, c ∉ P.dropLast)
    (hh2 : ∀ c ∈ tag2.head?, c ∉ P.tail) (hl2 : ∀ c ∈ tag2.getLast?, c ∉ P.dropLast) :
    ¬ P <:+: a ++ (tag1 ++ (t ++ (tag2 ++ b))) := by
  have e2 : ¬ P <:+: tag2 ++ b := not_infix_append_of_last P tag2 b h2 hb hl2
  have e3 : ¬ P <:+: t ++ (tag2 ++ b) :=
    not_infix_append_of_head P t _ ht e2 (by rwa [List.head?_append_of_ne_nil _ n2])
  have e4 : ¬ P <:+: tag1 ++ (t ++ (tag2 ++ b)) := not_infix_append_of_last P tag1 _ h1 e3 hl1
  exact not_infix_append_of_head P a _ ha e4 (by rwa [List.head?_append_of_ne_nil _ n1])

/-! ## `formatMessageContent`: emphasis -/

theorem needsChar_strongRe : NeedsChar flagsG (· == '*') strongRe :=
  needsChar_cat _ (needsChar_char _ _)

theorem needsChar_emRe : NeedsChar flagsG (· == '*') emRe :=
  needsChar_cat _ (needsChar_char _ _)

theorem needsChar_newlineRe : NeedsChar flagsG (· == '\n') newlineRe :=
  needsChar_char _ _

theorem needsChar_headingRe : NeedsChar flagsGM (· == '#') headingRe :=
  needsChar_cat _ (needsChar_rep_succ 0 5 true (needsChar_char _ _))

/-- The pattern `\*\*(.*?)\*\*` matches `**t**` when `t` holds no `*` and no line terminator,
and captures `t`. -/
theorem strong_match (before t rest : List Char) (h1 : '*' ∉ t)
    (h2 : ∀ c ∈ t, isLineTerminator c = false) :
    matchAt flagsG strongRe before ('*' :: '*' :: (t ++ '*' :: '*' :: rest)) =
      some ⟨'*' :: '*' :: (t.reverse ++ '*' :: '*' :: before), rest, [(1, t)]⟩ := by
  simp only [matchAt, strongRe, lazyDots, m_cat, m_char, stepChar_cons, m_group, m_rep, m_dot,
    beq_self_eq_true, if_true]
  refine repLoop_lazy _ _ _ _ _ t _ _ ?_ ?_ ?_ ?_
  · simp only [List.length_append, List.length_cons]
    omega
  · intro c hc
    simp [h2 c hc]
  · intro pre post hp hne
    cases post with
    | nil => exact absurd rfl hne
    | cons x post =>
      have hx : x ≠ '*' := by
        rintro rfl
        exact h1 (by simp [hp])
      simp [stepChar_cons, hx]
  · simp [stepChar_cons]

/-- The pattern `\*(.*?)\*` matches `*t*` when `t` holds no `*` and no line terminator,
and captures `t`. -/
theorem em_match (before t rest : List Char) (h1 : '*' ∉ t)
    (h2 : ∀ c ∈ t, isLineTerminator c = false) :
    matchAt flagsG emRe before ('*' :: (t ++ '*' :: rest)) =
      some ⟨'*' :: (t.reverse ++ '*' :: before), rest, [(1, t)]⟩ := by
  simp only [matchAt, emRe, lazyDots, m_cat, m_char, stepChar_cons, m_group, m_rep, m_dot,
    beq_self_eq_true, if_true]
  refine repLoop_lazy _ _ _ _ _ t _ _ ?_ ?_ ?_ ?_
  · simp only [List.length_append, List.length_cons]
    omega
  · intro c hc
    simp [h2 c hc]
  · intro pre post hp hne
    cases post with
    | nil => exact absurd rfl hne
    | cons x post =>
      have hx : x ≠ '*' := by
        rintro rfl
        exact h1 (by simp [hp])
      simp [stepChar_cons, hx]
  · simp [stepChar_cons]

/-- The pattern `\*\*(.*?)\*\*` does not match at a `*` that is followed by a text without
`**`. -/
theorem strong_noMatch (before t : List Char) (h : ¬ "**".toList <:+: t) :
    matchAt flagsG strongRe before ('*' :: t) = none := by
  simp only [matchAt, strongRe, lazyDots, m_cat, m_char, stepChar_cons, m_group, m_rep, m_dot,
    beq_self_eq_true, if_true]
  cases t with
  | nil => rfl
  | cons x t =>
    rw [stepChar_cons]
    split
    · apply repLoop_lazy_none
      intro pre post hp
      have hn : ¬ "**".toList <+: post := by
        rintro ⟨u, hu⟩
        exact h ⟨x :: pre, u, by simp [hp, ← hu]⟩
      have := lit_none flagsG some
        ((1, ((pre.reverse ++ x :: '*' :: before).take
          ((pre.reverse ++ x :: '*' :: before).length - (x :: '*' :: before).length)).reverse) :: [])
        "**".toList (pre.reverse ++ x :: '*' :: before) post (by simp) hn
      simpa [Re.lit, m_cat, m_char] using this
    · rfl

/-- The pattern `- (.*?)$` matches only where the text goes on with `- `. -/
theorem item_noMatch (before post : List Char) (h : ¬ "- ".toList <+: post) :
    matchAt flagsGM itemRe before post = none := by
  rw [matchAt, itemRe, m_cat]
  exact lit_none _ _ _ _ _ _ (by simp) h

/-- The pattern `(<li>.*<\/li>)` matches only where a `</li>` follows. -/
theorem list_noMatch (before post : List Char) (h : ¬ "</li>".toList <:+: post) :
    matchAt flagsGS listRe before post = none := by
  rw [matchAt, listRe, m_group, m_cat]
  by_cases hp : "<li>".toList <+: post
  · obtain ⟨rest, rfl⟩ := hp
    rw [lit_m _ _ _ _ _ _ (by simp), m_cat, m_rep, m_dot]
    apply repLoop_greedy_none
    intro pre post2 hpp
    apply lit_none _ _ _ _ _ _ (by simp)
    rintro ⟨u, hu⟩
    exact h ⟨"<li>".toList ++ pre, u, by simp [hpp, ← hu]⟩
  · exact lit_none _ _ _ _ _ _ (by simp) hp

theorem not_infix_of_not_mem (P x : List Char) (c : Char) (hc : c ∈ P) (hx : c ∉ x) :
    ¬ P <:+: x :=
  fun h => hx (h.mem hc)

/-- The last four steps of `formatMessageContent` (line breaks, headings, list items, the
list wrapper) change nothing in a text without line feed, `#`, `- ` and `</li>`. -/
theorem formatTail_id (Y : List Char) (hn : '\n' ∉ Y) (hh : '#' ∉ Y)
    (hi : ¬ "- ".toList <:+: Y) (hl : ¬ "</li>".toList <:+: Y) :
    replaceAll flagsGS listRe (fun g => "<ul>".toList ++ g 1 ++ "</ul>".toList)
      (replaceAll flagsGM itemRe (fun g => "<li>".toList ++ g 1 ++ "</li>".toList)
        (replaceAll flagsGM headingRe (fun g => "<h3>".toList ++ g 1 ++ "</h3>".toList)
          (replaceAll flagsG newlineRe (fun _ => "<br>".toList) Y))) = Y := by
  rw [replaceAll_needsChar _ needsChar_newlineRe Y
      (fun c hc => by simpa using fun h : c = '\n' => hn (h ▸ hc)),
    replaceAll_needsChar _ needsChar_headingRe Y
      (fun c hc => by simpa using fun h : c = '#' => hh (h ▸ hc)),
    replaceAll_noMatch flagsGM itemRe _ Y, replaceAll_noMatch flagsGS listRe _ Y]
  · intro pre post hp
    apply list_noMatch
    rintro ⟨s, u, hu⟩
    exact hl ⟨pre ++ s, u, by simp [hp, ← hu]⟩
  · intro pre post hp
    apply item_noMatch
    rintro ⟨u, hu⟩
    exact hi ⟨pre, u, by simp [hp, ← hu]⟩

theorem Plain.no_newline {s : JSString} (h : Plain s) : '\n' ∉ s :=
  fun hc => by simpa [isLineTerminator] using h.2.2.1 _ hc

/-- The two tags of an emphasis around `t`, between `a` and `b`: still no line feed, no
`#`, no `- ` and no `</li>`. -/
theorem wrapped_clean (a t b tag1 tag2 : List Char) (ha : Plain a) (ht : Plain t)
    (hb : Plain b)
    (h1 : tag1 = "<strong>".toList ∨ tag1 = "<em>".toList)
    (h2 : tag2 = "</strong>".toList ∨ tag2 = "</em>".toList) :
    '*' ∉ a ++ (tag1 ++ (t ++ (tag2 ++ b))) ∧ '\n' ∉ a ++ (tag1 ++ (t ++ (tag2 ++ b))) ∧
    '#' ∉ a ++ (tag1 ++ (t ++ (tag2 ++ b))) ∧
    ¬ "- ".toList <:+: a ++ (tag1 ++ (t ++ (tag2 ++ b))) ∧
    ¬ "</li>".toList <:+: a ++ (tag1 ++ (t ++ (tag2 ++ b))) := by
  have na := ha.no_newline
  have nt := ht.no_newline
  have nb := hb.no_newline
  obtain ⟨a1, a2, -, a4, a5⟩ := ha
  obtain ⟨t1, t2, -, t4, t5⟩ := ht
  obtain ⟨b1, b2, -, b4, b5⟩ := hb
  rcases h1 with rfl | rfl <;> rcases h2 with rfl | rfl <;>
    refine ⟨by simp [a1, t1, b1], by simp [na, nt, nb], by simp [a2, t2, b2],
      not_infix_wrap _ _ _ _ _ _ a4 t4 b4 (by decide) (by decide) (by simp) (by simp)
        (by simp) (by simp) (by simp) (by simp),
      not_infix_wrap _ _ _ _ _ _ a5 t5 b5 (by decide) (by decide) (by simp) (by simp)
        (by simp) (by simp) (by simp) (by simp)⟩

theorem replaceGo_needsChar_all {fl : Flags} {p : Char → Bool} {re : Re}
    (repl : (Nat → JSString) → JSString) (h : NeedsChar fl p re) (xs before : List Char)
    (hx : ∀ c ∈ xs, p c = false) : replaceGo fl re repl before xs 0 = xs := by
  have := replaceGo_needsChar repl h xs before [] hx
  rw [List.append_nil] at this
  rw [this, replaceGo_needsChar_nil repl h]
  simp

theorem star_free {s : List Char} (h : '*' ∉ s) : ∀ c ∈ s, (c == '*') = false :=
  fun c hc => by simpa using fun e : c = '*' => h (e ▸ hc)

/-- The first step of `formatMessageContent` on `a**t**b`. -/
theorem strong_pass (a t b : List Char) (ha : Plain a) (ht : Plain t) (hb : Plain b) :
    replaceAll flagsG strongRe (fun g => "<strong>".toList ++ g 1 ++ "</strong>".toList)
      (a ++ ('*' :: '*' :: (t ++ '*' :: '*' :: b))) =
      a ++ ("<strong>".toList ++ (t ++ ("</strong>".toList ++ b))) := by
  rw [replaceAll, replaceGo_needsChar _ needsChar_strongRe a _ _ (star_free ha.1)]
  have hm := strong_match (a.reverse ++ []) t b ht.1 ht.2.2.1
  have e : '*' :: '*' :: (t ++ '*' :: '*' :: b) = ('*' :: '*' :: (t ++ ['*', '*'])) ++ b := by
    simp
  rw [e] at hm ⊢
  rw [replaceGo_match _ _ _ _ _ _ _ (by simp) hm rfl,
    replaceGo_needsChar_all _ needsChar_strongRe b _ (star_free hb.1)]
  simp [capture, List.lookup]

/-- The second step of `formatMessageContent` on `a*t*b`. -/
theorem em_pass (a t b : List Char) (ha : Plain a) (ht : Plain t) (hb : Plain b) :
    replaceAll flagsG emRe (fun g => "<em>".toList ++ g 1 ++ "</em>".toList)
      (a ++ ('*' :: (t ++ '*' :: b))) =
      a ++ ("<em>".toList ++ (t ++ ("</em>".toList ++ b))) := by
  rw [replaceAll, replaceGo_needsChar _ needsChar_emRe a _ _ (star_free ha.1)]
  have hm := em_match (a.reverse ++ []) t b ht.1 ht.2.2.1
  have e : '*' :: (t ++ '*' :: b) = ('*' :: (t ++ ['*'])) ++ b := by
    simp
  rw [e] at hm ⊢
  rw [replaceGo_match _ _ _ _ _ _ _ (by simp) hm rfl,
    replaceGo_needsChar_all _ needsChar_emRe b _ (star_free hb.1)]
  simp [capture, List.lookup]

/-- The first step of `formatMessageContent` on `a*t*b`: nothing to make strong. -/
theorem strong_pass_single (a t b : List Char) (ha : Plain a) (ht : Plain t) (hb : Plain b) :
    replaceAll flagsG strongRe (fun g => "<strong>".toList ++ g 1 ++ "</strong>".toList)
      (a ++ ('*' :: (t ++ '*' :: b))) = a ++ ('*' :: (t ++ '*' :: b)) := by
  have nb : ¬ "**".toList <:+: b := not_infix_of_not_mem _ _ '*' (by simp) hb.1
  have nsb : ¬ "**".toList <:+: '*' :: b :=
    not_infix_append_of_head _ ['*'] b (by decide) nb
      (fun c hc => fun h => hb.1 (by
        have : c = '*' := by simpa using h
        exact this ▸ List.mem_of_mem_head? hc))
  have ntb : ¬ "**".toList <:+: t ++ '*' :: b :=
    not_infix_append_of_last _ t _ (not_infix_of_not_mem _ _ '*' (by simp) ht.1) nsb
      (fun c hc => fun h => ht.1 (by
        have : c = '*' := by simpa using h
        exact this ▸ List.mem_of_mem_getLast? hc))
  rw [replaceAll, replaceGo_needsChar _ needsChar_strongRe a _ _ (star_free ha.1),
    replaceGo_step _ _ _ _ _ _ (strong_noMatch _ _ ntb),
    replaceGo_needsChar _ needsChar_strongRe t _ _ (star_free ht.1),
    replaceGo_step _ _ _ _ _ _ (strong_noMatch _ _ nb),
    replaceGo_needsChar_all _ needsChar_strongRe b _ (star_free hb.1)]

/-! ## Letters and digits -/

theorem alnum_bounds (c : Char) (h : c.isAlphanum = true) : 48 ≤ c.toNat ∧ c.toNat ≤ 122 := by
  simp only [Char.isAlphanum, Char.isAlpha, Char.isUpper, Char.isLower, Char.isDigit,
    Bool.or_eq_true, Bool.and_eq_true, decide_eq_true_eq] at h
  simp only [UInt32.le_def, Fin.le_def] at h
  have e : c.toNat = c.val.val.val := rfl
  rw [e]
  change (65 ≤ c.val.val.val ∧ c.val.val.val ≤ 90 ∨ 97 ≤ c.val.val.val ∧ c.val.val.val ≤ 122) ∨
    48 ≤ c.val.val.val ∧ c.val.val.val ≤ 57 at h
  omega

theorem alnum_ne (c d : Char) (h : c.isAlphanum = true) (hd : d.isAlphanum = false) :
    c ≠ d := by
  rintro rfl
  rw [hd] at h
  exact Bool.noConfusion h

theorem alnum_not_lineTerminator (c : Char) (h : c.isAlphanum = true) :
    isLineTerminator c = false := by
  simp only [isLineTerminator, Bool.or_eq_false_iff, beq_eq_false_iff_ne]
  exact ⟨⟨⟨alnum_ne _ _ h (by decide), alnum_ne _ _ h (by decide)⟩, alnum_ne _ _ h (by decide)⟩,
    alnum_ne _ _ h (by decide)⟩

theorem alnum_not_whiteSpace (c : Char) (h : c.isAlphanum = true) : isWhiteSpace c = false := by
  have hb := alnum_bounds c h
  simp only [isWhiteSpace, Bool.or_eq_false_iff, beq_eq_false_iff_ne, Bool.and_eq_false_iff,
    decide_eq_false_iff_not]
  refine ⟨⟨⟨⟨⟨⟨⟨⟨⟨⟨⟨⟨⟨⟨?_, ?_⟩, ?_⟩, ?_⟩, ?_⟩, ?_⟩, ?_⟩, ?_⟩, ?_⟩, ?_⟩, ?_⟩, ?_⟩, ?_⟩, ?_⟩, ?_⟩
  all_goals first
    | exact alnum_ne _ _ h (by decide)
    | (left; omega)

/-! ## Repetition of a one-character pattern, greedy -/

/-- A greedy `*` that can take all of `ys` and not the character after it, while the rest
of the pattern fails after every non-empty part of `ys`, takes nothing. -/
theorem repLoop_greedy_back (p : Char → Bool) (k : Cont) (zs : List Char)
    (caps : List (Nat × JSString)) (hz : ∀ c ∈ zs.head?, p c = false) :
    ∀ (ys b : List Char) (fuel : Nat), ys.length < fuel → (∀ c ∈ ys, p c = true) →
      (∀ pre post, ys = pre ++ post → pre ≠ [] →
        k ⟨pre.reverse ++ b, post ++ zs, caps⟩ = none) →
      repLoop (stepChar p) fuel 0 none true k ⟨b, ys ++ zs, caps⟩ = k ⟨b, ys ++ zs, caps⟩
  | _, _, 0, hf, _, _ => absurd hf (Nat.not_lt_zero _)
  | [], b, fuel + 1, _, _, _ => by
    simp only [repLoop, List.nil_append]
    cases zs with
    | nil => simp [stepChar_nil]
    | cons z zs =>
      have : p z = false := hz z (by simp)
      simp [stepChar_cons, this]
  | y :: ys, b, fuel + 1, hf, hp, hfail => by
    have ih := repLoop_greedy_back p k zs caps hz ys (y :: b) fuel (by simpa using hf)
      (fun c hc => hp c (by simp [hc]))
      (fun pre post h hne => by
        have := hfail (y :: pre) post (by simp [h]) (by simp)
        simpa using this)
    have h1 : k ⟨y :: b, ys ++ zs, caps⟩ = none := by
      simpa using hfail [y] ys rfl (by simp)
    simp only [repLoop, List.cons_append]
    simp [stepChar_cons, hp y (by simp), ih, h1]

/-- A greedy repetition of a one-character pattern over `xs ++ ys` gives back `ys` when the
rest of the pattern matches after `xs` and after no longer part. -/
theorem repLoop_greedy (p : Char → Bool) (k : Cont) (r : MState) (zs : List Char)
    (caps : List (Nat × JSString)) (hz : ∀ c ∈ zs.head?, p c = false) (ys : List Char)
    (hys : ∀ c ∈ ys, p c = true) :
    ∀ (xs b : List Char) (fuel min : Nat), min ≤ xs.length → xs.length + ys.length < fuel →
      (∀ c ∈ xs, p c = true) →
      (∀ pre post, ys = pre ++ post → pre ≠ [] →
        k ⟨pre.reverse ++ (xs.reverse ++ b), post ++ zs, caps⟩ = none) →
      k ⟨xs.reverse ++ b, ys ++ zs, caps⟩ = some r →
      repLoop (stepChar p) fuel min none true k ⟨b, xs ++ (ys ++ zs), caps⟩ = some r
  | _, _, 0, _, _, hf, _, _, _ => absurd hf (Nat.not_lt_zero _)
  | [], b, fuel + 1, min, hmin, hf, _, hfail, hk => by
    have hm : min = 0 := by simpa using hmin
    subst hm
    rw [List.nil_append, repLoop_greedy_back p k zs caps hz ys b (fuel + 1)
      (by simpa using hf) hys (by simpa using hfail)]
    simpa using hk
  | x :: xs, b, fuel + 1, min, hmin, hf, hp, hfail, hk => by
    have ih := repLoop_greedy p k r zs caps hz ys hys xs (x :: b) fuel (min - 1)
      (by simp at hmin; omega) (by simp at hf; omega) (fun c hc => hp c (by simp [hc]))
      (by simpa using hfail) (by simpa using hk)
    simp only [repLoop, List.cons_append]
    by_cases hm : min = 0
    · subst hm
      simp only [Nat.zero_sub] at ih
      simp [stepChar_cons, hp x (by simp), ih]
    · simp [hm, stepChar_cons, hp x (by simp), ih]

/-- The pattern `\n?` at a line feed takes it when the rest of the pattern then matches. -/
theorem optNewline_cons (k : Cont) (b rest : List Char) (caps : List (Nat × JSString))
    (r : MState) (h : k ⟨'\n' :: b, rest, caps⟩ = some r) :
    (Re.rep 0 (some 1) true (.char '\n')).m flagsG k ⟨b, '\n' :: rest, caps⟩ = some r := by
  rw [m_rep, m_char]
  simp only [repLoop, List.length_cons]
  simp [repLoop, stepChar_cons, h]

/-- The pattern `\n?` at the end of the text takes nothing. -/
theorem optNewline_nil (k : Cont) (b : List Char) (caps : List (Nat × JSString)) :
    (Re.rep 0 (some 1) true (.char '\n')).m flagsG k ⟨b, [], caps⟩ = k ⟨b, [], caps⟩ := by
  rw [m_rep, m_char]
  simp only [repLoop]
  simp [stepChar_nil]

/-! ## The table pattern on a markdown table -/

theorem greedy_step (body : Cont → MState → Option MState) (k : Cont) (s r : MState)
    (fuel : Nat)
    (h : body (fun y => if y.after.length = s.after.length then none
      else repLoop body fuel 0 none true k y) s = some r) :
    repLoop body (fuel + 1) 0 none true k s = some r := by
  simp only [repLoop]
  simp only [Nat.zero_sub, Option.map_none', true_and] at *
  simp [h]

theorem repLoop_greedy_one (p : Char → Bool) (k : Cont) (r : MState) (zs : List Char)
    (caps : List (Nat × JSString)) (hz : ∀ c ∈ zs.head?, p c = false) (y : Char)
    (hy : p y = true) (xs b : List Char) (fuel min : Nat) (hmin : min ≤ xs.length)
    (hf : xs.length + 1 < fuel) (hp : ∀ c ∈ xs, p c = true)
    (hfail : k ⟨y :: (xs.reverse ++ b), zs, caps⟩ = none)
    (hk : k ⟨xs.reverse ++ b, y :: zs, caps⟩ = some r) :
    repLoop (stepChar p) fuel min none true k ⟨b, xs ++ y :: zs, caps⟩ = some r := by
  refine repLoop_greedy p k r zs caps hz [y] (by simpa using hy) xs b fuel min hmin
    (by simpa using hf) hp ?_ (by simpa using hk)
  intro pre post h hne
  rcases pre with _ | ⟨q, pre⟩
  · exact absurd rfl hne
  · have h1 : q = y ∧ pre = [] ∧ post = [] := by
      rcases pre with _ | ⟨q2, pre⟩
      · simpa [eq_comm] using h
      · simp at h
    obtain ⟨rfl, rfl, rfl⟩ := h1
    simpa using hfail

theorem cellsText_eq : ∀ (row : List JSString), row ≠ [] →
    cellsText row = lineInner row ++ ['|']
  | [], h => absurd rfl h
  | [c], _ => by simp [cellsText, lineInner]
  | c :: d :: cs, _ => by
    have ih := cellsText_eq (d :: cs) (by simp)
    rw [cellsText, ih]
    simp [lineInner]

theorem mdLine_eq (row : List JSString) (h : row ≠ []) :
    mdLine row = '|' :: (lineInner row ++ ['|']) := by
  rw [mdLine, cellsText_eq row h]

theorem lineInner_chars : ∀ (row : List JSString), (∀ c ∈ row, Cell c) →
    ∀ x ∈ lineInner row, x = ' ' ∨ x = '|' ∨ x.isAlphanum = true
  | [], _, x, hx => by simp [lineInner] at hx
  | [c], h, x, hx => by
    simp only [lineInner, List.mem_cons, List.mem_append, List.not_mem_nil, or_false] at hx
    rcases hx with rfl | hx | rfl
    · simp
    · exact Or.inr (Or.inr ((h c (by simp)).2 x hx))
    · simp
  | c :: d :: cs, h, x, hx => by
    have ih := lineInner_chars (d :: cs) (fun c hc => h c (by simp [hc])) x
    simp only [lineInner, List.mem_cons, List.mem_append] at hx
    rcases hx with rfl | hx | rfl | rfl | hx
    · simp
    · exact Or.inr (Or.inr ((h c (by simp)).2 x hx))
    · simp
    · simp
    · exact ih hx

theorem lineInner_dot (row : List JSString) (h : ∀ c ∈ row, Cell c) :
    ∀ x ∈ lineInner row, (flagsG.dotAll || !isLineTerminator x) = true := by
  intro x hx
  rcases lineInner_chars row h x hx with rfl | rfl | ha
  · decide
  · decide
  · simp [flagsG, alnum_not_lineTerminator x ha]

theorem lineInner_length_pos (row : List JSString) (h : row ≠ []) :
    1 ≤ (lineInner row).length := by
  rcases row with _ | ⟨c, _ | ⟨d, cs⟩⟩
  · exact absurd rfl h
  · simp [lineInner]
  · simp [lineInner]

/-- The row pattern `\|.*\|\n?` on the last line of the text. -/
theorem row_match_last (d : Cont) (r : MState) (row : List JSString) (hne : row ≠ [])
    (hc : ∀ c ∈ row, Cell c) (b : List Char) (caps : List (Nat × JSString))
    (hd : d ⟨(mdLine row).reverse ++ b, [], caps⟩ = some r) :
    tableRowRe.m flagsG d ⟨b, mdLine row, caps⟩ = some r := by
  rw [mdLine_eq row hne] at hd ⊢
  simp only [tableRowRe, m_cat, m_char, stepChar_cons, beq_self_eq_true, if_true, m_rep, m_dot]
  refine repLoop_greedy_one _ _ r [] caps (by simp) '|' (by decide) (lineInner row) _ _ 0
    (Nat.zero_le _) (by simp) (lineInner_dot row hc) (by simp [m_cat, m_char, stepChar_nil]) ?_
  rw [m_cat, m_char, stepChar_cons]
  simp only [beq_self_eq_true, if_true]
  rw [optNewline_nil]
  simpa using hd

/-- The row pattern `\|.*\|\n?` on a line that is followed by a line feed. -/
theorem row_match_next (d : Cont) (r : MState) (row : List JSString) (hne : row ≠ [])
    (hc : ∀ c ∈ row, Cell c) (b rest : List Char) (caps : List (Nat × JSString))
    (hd : d ⟨'\n' :: ((mdLine row).reverse ++ b), rest, caps⟩ = some r) :
    tableRowRe.m flagsG d ⟨b, mdLine row ++ '\n' :: rest, caps⟩ = some r := by
  rw [mdLine_eq row hne] at hd ⊢
  simp only [tableRowRe, m_cat, m_char, stepChar_cons, beq_self_eq_true, if_true, m_rep, m_dot,
    List.cons_append, List.append_assoc, List.singleton_append]
  refine repLoop_greedy_one _ _ r ('\n' :: rest) caps (by simp [flagsG, isLineTerminator])
    '|' (by decide) (lineInner row) _ _ 0
    (Nat.zero_le _) (by simp) (lineInner_dot row hc) (by simp [m_cat, m_char, stepChar_cons]) ?_
  rw [m_cat, m_char, stepChar_cons]
  simp only [beq_self_eq_true, if_true]
  rw [optNewline_cons]
  simpa using hd

/-- The rows loop `(?:\|.*\|\n?)*` takes every line of the rows. -/
theorem rows_loop (k : Cont) (caps : List (Nat × JSString)) (r : MState) :
    ∀ (rows : List (List JSString)), (∀ row ∈ rows, row ≠ [] ∧ ∀ c ∈ row, Cell c) →
      ∀ (b : List Char) (fuel : Nat), (joinLines (rows.map mdLine)).length < fuel →
      k ⟨(joinLines (rows.map mdLine)).reverse ++ b, [], caps⟩ = some r →
      repLoop (tableRowRe.m flagsG) fuel 0 none true k ⟨b, joinLines (rows.map mdLine), caps⟩ =
        some r
  | _, _, _, 0, hf, _ => absurd hf (Nat.not_lt_zero _)
  | [], _, b, fuel + 1, _, hk => by
    simp only [List.map_nil, joinLines, List.reverse_nil, List.nil_append] at hk ⊢
    simp only [repLoop]
    simp [tableRowRe, m_cat, m_char, stepChar_nil, hk]
  | [row], h, b, fuel + 1, hf, hk => by
    simp only [List.map_cons, List.map_nil, joinLines] at hf hk ⊢
    apply greedy_step
    apply row_match_last _ _ _ (h row (by simp)).1 (h row (by simp)).2
    have hpos : (mdLine row).length ≠ 0 := by simp [mdLine]
    have hfuel : 0 < fuel := by omega
    obtain ⟨f, rfl⟩ := Nat.exists_eq_succ_of_ne_zero (Nat.pos_iff_ne_zero.mp hfuel)
    simp only [List.length_nil]
    rw [if_neg (fun e => hpos e.symm)]
    exact rows_loop k caps r [] (by simp) _ _ (by simp [joinLines]) (by simpa [joinLines] using hk)
  | row :: row2 :: rows, h, b, fuel + 1, hf, hk => by
    have e : joinLines ((row :: row2 :: rows).map mdLine) =
        mdLine row ++ '\n' :: joinLines ((row2 :: rows).map mdLine) := by
      simp [joinLines]
    rw [e] at hf hk ⊢
    apply greedy_step
    apply row_match_next _ _ _ (h row (by simp)).1 (h row (by simp)).2
    simp only []
    rw [if_neg (by simp; omega)]
    refine rows_loop k caps r (row2 :: rows) (fun x hx => h x (by simp [hx])) _ _ ?_ ?_
    · simp only [List.length_append, List.length_cons] at hf
      omega
    · simpa using hk

/-- The rows part of `tableRegex` takes all the data rows and captures them. -/
theorem tableRows_match (rows : List (List JSString))
    (h : ∀ row ∈ rows, row ≠ [] ∧ ∀ c ∈ row, Cell c) (b : List Char)
    (caps : List (Nat × JSString)) :
    tableRowsRe.m flagsG some ⟨b, joinLines (rows.map mdLine), caps⟩ =
      some ⟨(joinLines (rows.map mdLine)).reverse ++ b, [],
        (2, joinLines (rows.map mdLine)) :: caps⟩ := by
  rw [tableRowsRe, m_group, m_rep]
  apply rows_loop _ _ _ rows h
  · simp
  · simp

theorem sepLine_eq : ∀ (hs : List JSString), hs ≠ [] →
    ∃ sb, sepLine hs = '|' :: (sb ++ ['|']) ∧ 1 ≤ sb.length ∧ ∀ c ∈ sb, c = '-' ∨ c = '|'
  | [], h => absurd rfl h
  | [_], _ => ⟨"---".toList, by simp [sepLine], by simp, by simp⟩
  | _ :: h2 :: hs, _ => by
    obtain ⟨sb, e, _, hc⟩ := sepLine_eq (h2 :: hs) (by simp)
    refine ⟨"---|".toList ++ sb, ?_, by simp, ?_⟩
    · simp only [sepLine, List.cons.injEq, true_and] at e
      simp only [sepLine, List.map_cons, List.flatten_cons] at e ⊢
      rw [e]
      simp
    · intro c hcm
      simp only [List.mem_append] at hcm
      rcases hcm with hcm | hcm
      · simp at hcm
        tauto
      · exact hc c hcm

theorem rows_text_head (rows : List (List JSString)) (hne : rows ≠ [])
    (h : ∀ row ∈ rows, row ≠ [] ∧ ∀ c ∈ row, Cell c) :
    ∃ x rest, joinLines (rows.map mdLine) = '|' :: ' ' :: x :: rest ∧ x.isAlphanum = true := by
  rcases rows with _ | ⟨row, rows⟩
  · exact absurd rfl hne
  · obtain ⟨hrow, hcells⟩ := h row (by simp)
    rcases row with _ | ⟨c, cs⟩
    · exact absurd rfl hrow
    · obtain ⟨hc, hal⟩ := hcells c (by simp)
      rcases c with _ | ⟨x, c⟩
      · exact absurd rfl hc
      · rcases rows with _ | ⟨row2, rows⟩
        · exact ⟨x, c ++ ' ' :: '|' :: cellsText cs, by simp [joinLines, mdLine, cellsText],
            hal x (by simp)⟩
        · exact ⟨x, c ++ ' ' :: '|' :: (cellsText cs ++
            '\n' :: joinLines (mdLine row2 :: rows.map mdLine)),
            by simp [joinLines, mdLine, cellsText], hal x (by simp)⟩

theorem mdTable_eq (hs : List JSString) (rows : List (List JSString)) (hne : rows ≠ []) :
    mdTable hs rows =
      mdLine hs ++ '\n' :: (sepLine hs ++ '\n' :: joinLines (rows.map mdLine)) := by
  rcases rows with _ | ⟨row, rows⟩
  · exact absurd rfl hne
  · simp [mdTable, joinLines]

theorem class_alnum (x : Char) (h : x.isAlphanum = true) :
    [ClassItem.ch '-', .space, .ch '|', .ch ':'].any (·.test x) = false := by
  simp [ClassItem.test, alnum_not_whiteSpace x h, alnum_ne x '-' h (by decide),
    alnum_ne x '|' h (by decide), alnum_ne x ':' h (by decide)]

/-- The separator part of `tableRegex`: it takes the separator line, gives back what the
greedy class took of the first data row, and takes all the data rows. -/
theorem tableSep_match (hs : List JSString) (rows : List (List JSString)) (hhs : hs ≠ [])
    (hrows : rows ≠ []) (h : ∀ row ∈ rows, row ≠ [] ∧ ∀ c ∈ row, Cell c) (b : List Char)
    (caps : List (Nat × JSString)) :
    ∃ bf, tableSepRe.m flagsG some ⟨b, sepLine hs ++ '\n' :: joinLines (rows.map mdLine), caps⟩ =
      some ⟨bf, [], (2, joinLines (rows.map mdLine)) :: caps⟩ := by
  obtain ⟨sb, hsb, hlen, hcls⟩ := sepLine_eq hs hhs
  obtain ⟨x, R, hR, hx⟩ := rows_text_head rows hrows h
  refine ⟨(joinLines (rows.map mdLine)).reverse ++ '\n' :: '|' :: (sb.reverse ++ '|' :: b), ?_⟩
  rw [hsb]
  simp only [tableSepRe, m_cat, m_char, List.cons_append, List.append_assoc, List.nil_append,
    List.singleton_append, stepChar_cons, beq_self_eq_true, if_true, m_rep, m_cls]
  have e : sb ++ '|' :: '\n' :: joinLines (rows.map mdLine) =
      sb ++ (['|', '\n', '|', ' '] ++ (x :: R)) := by
    rw [hR]
    simp
  have e2 : ['|', '\n', '|', ' '] ++ (x :: R) = '|' :: '\n' :: joinLines (rows.map mdLine) := by
    rw [hR]
    simp
  rw [e]
  refine repLoop_greedy _ _ _ (x :: R) caps (by simpa using class_alnum x hx)
    ['|', '\n', '|', ' '] (by decide) sb _ _ 1 hlen ?_ ?_ ?_ ?_
  · simp only [List.length_append, List.length_cons]
    omega
  · intro c hc
    rcases hcls c hc with rfl | rfl <;> decide
  · intro pre post hp hne
    have hx2 : x ≠ '|' := alnum_ne x '|' hx (by decide)
    rcases pre with _ | ⟨p1, _ | ⟨p2, _ | ⟨p3, _ | ⟨p4, _ | ⟨p5, pre⟩⟩⟩⟩⟩
    · exact absurd rfl hne
    · simp at hp
      obtain ⟨rfl, rfl⟩ := hp
      simp [m_cat, m_char, stepChar_cons]
    · simp at hp
      obtain ⟨rfl, rfl, rfl⟩ := hp
      simp [m_cat, m_char, stepChar_cons]
    · simp at hp
      obtain ⟨rfl, rfl, rfl, rfl⟩ := hp
      simp [m_cat, m_char, stepChar_cons]
    · simp at hp
      obtain ⟨rfl, rfl, rfl, rfl, rfl⟩ := hp
      simp [m_cat, m_char, stepChar_cons, hx2]
    · simp at hp
  · rw [e2, m_cat, m_char, stepChar_cons]
    simp only [beq_self_eq_true, if_true]
    rw [m_cat, m_char, stepChar_cons]
    simp only [beq_self_eq_true, if_true]
    rw [tableRows_match rows h]

/-- On a markdown table `tableRegex` matches the whole text: group 1 is the header line
without its outer pipes, group 2 the data rows. -/
theorem table_match (hs : List JSString) (rows : List (List JSString)) (hhs : hs ≠ [])
    (hrows : rows ≠ []) (hh : ∀ c ∈ hs, Cell c)
    (h : ∀ row ∈ rows, row ≠ [] ∧ ∀ c ∈ row, Cell c) (before : List Char) :
    ∃ bf, matchAt flagsG tableRegex before (mdTable hs rows) =
      some ⟨bf, [], [(2, joinLines (rows.map mdLine)), (1, lineInner hs)]⟩ := by
  obtain ⟨bf, hbf⟩ := tableSep_match hs rows hhs hrows h
    ('\n' :: '|' :: ((lineInner hs).reverse ++ '|' :: before)) [(1, lineInner hs)]
  refine ⟨bf, ?_⟩
  rw [mdTable_eq hs rows hrows, mdLine_eq hs hhs]
  simp only [matchAt, tableRegex, m_cat, m_char, List.cons_append, List.append_assoc,
    List.nil_append, List.singleton_append, stepChar_cons, beq_self_eq_true, if_true, m_group,
    m_rep, m_dot]
  refine repLoop_greedy_one _ _ _ _ [] (by simp [flagsG, isLineTerminator]) '|' (by decide)
    (lineInner hs) _ _ 1 (lineInner_length_pos hs hhs) ?_ (lineInner_dot hs hh) ?_ ?_
  · simp only [List.length_append, List.length_cons]
    omega
  · simp [m_cat, m_char, stepChar_cons]
  · simp only [m_cat, m_char, stepChar_cons, beq_self_eq_true, if_true, captured_text]
    simpa using hbf

/-! ## `split` and `trim` on table lines -/

theorem split_noSep (sep : Char) : ∀ (x : List Char), sep ∉ x → split sep x = [x]
  | [], _ => rfl
  | c :: cs, h => by
    have hc : c ≠ sep := fun e => h (by simp [e])
    have ih := split_noSep sep cs (fun hm => h (by simp [hm]))
    simp [split, hc, ih]

theorem split_append (sep : Char) (y : List Char) :
    ∀ (x : List Char), sep ∉ x → split sep (x ++ sep :: y) = x :: split sep y
  | [], _ => by simp [split]
  | c :: cs, h => by
    have hc : c ≠ sep := fun e => h (by simp [e])
    have ih := split_append sep y cs (fun hm => h (by simp [hm]))
    simp [split, hc, ih]

theorem split_ne_nil (sep : Char) : ∀ (x : List Char), split sep x ≠ []
  | [] => by simp [split]
  | c :: cs => by
    by_cases hc : c = sep
    · simp [split, hc]
    · simp only [split, hc, if_false]
      cases split sep cs <;> simp

theorem split_snoc (sep : Char) : ∀ (x : List Char),
    split sep (x ++ [sep]) = split sep x ++ [[]]
  | [] => by simp [split]
  | c :: cs => by
    have ih := split_snoc sep cs
    by_cases hc : c = sep
    · simp [split, hc, ih]
    · simp only [List.cons_append, split, hc, if_false]
      show (match split sep (cs ++ [sep]) with
        | [] => [[c]]
        | w :: ws => (c :: w) :: ws) = _
      rw [ih]
      have hne := split_ne_nil sep cs
      cases hs : split sep cs with
      | nil => exact absurd hs hne
      | cons w ws => simp

theorem dropWhile_none (p : Char → Bool) (l : List Char) (h : ∀ c ∈ l.head?, p c = false) :
    l.dropWhile p = l := by
  cases l with
  | nil => rfl
  | cons c cs => simp [List.dropWhile, h c (by simp)]

/-- A text that starts and ends with a character that is no white space is its own trim. -/
theorem trim_eq_self (s : List Char) (h1 : ∀ c ∈ s.head?, isWhiteSpace c = false)
    (h2 : ∀ c ∈ s.getLast?, isWhiteSpace c = false) : trim s = s := by
  rw [trim, dropWhile_none _ s h1, dropWhile_none _ s.reverse (by simpa using h2)]
  simp

theorem trim_pad (c : List Char) (hc : Cell c) : trim (' ' :: (c ++ [' '])) = c := by
  have hws : ∀ x ∈ c, isWhiteSpace x = false := fun x hx => alnum_not_whiteSpace x (hc.2 x hx)
  have h1 : List.dropWhile isWhiteSpace (' ' :: (c ++ [' '])) = c ++ [' '] := by
    rw [List.dropWhile_cons_of_pos (by decide)]
    apply dropWhile_none
    intro x hx
    rcases c with _ | ⟨y, c⟩
    · exact absurd rfl hc.1
    · simp at hx
      exact hws x (by simp [hx])
  have h2 : List.dropWhile isWhiteSpace (c ++ [' ']).reverse = c.reverse := by
    rw [List.reverse_append, List.reverse_singleton, List.singleton_append,
      List.dropWhile_cons_of_pos (by decide)]
    apply dropWhile_none
    intro x hx
    exact hws x (List.mem_reverse.mp (List.mem_of_mem_head? hx))
  rw [trim, h1, h2, List.reverse_reverse]

theorem pad_no_pipe (c : List Char) (hc : Cell c) : '|' ∉ ' ' :: (c ++ [' ']) := by
  intro h
  simp only [List.mem_cons, List.mem_append, List.not_mem_nil, or_false] at h
  rcases h with h | h | h
  · exact absurd h (by decide)
  · exact alnum_ne _ _ (hc.2 _ h) (by decide) rfl
  · exact absurd h (by decide)

theorem split_lineInner : ∀ (row : List JSString), row ≠ [] → (∀ c ∈ row, Cell c) →
    split '|' (lineInner row) = row.map (fun c => ' ' :: (c ++ [' ']))
  | [], h, _ => absurd rfl h
  | [c], _, h => by
    simp only [lineInner, List.map_cons, List.map_nil]
    exact split_noSep _ _ (pad_no_pipe c (h c (by simp)))
  | c :: d :: cs, _, h => by
    have ih := split_lineInner (d :: cs) (by simp) (fun x hx => h x (by simp [hx]))
    have e : lineInner (c :: d :: cs) = (' ' :: (c ++ [' '])) ++ '|' :: lineInner (d :: cs) := by
      simp [lineInner]
    rw [e, split_append _ _ _ (pad_no_pipe c (h c (by simp))), ih]
    simp

theorem filter_trim_pad : ∀ (row : List JSString), (∀ c ∈ row, Cell c) →
    ((row.map (fun c => ' ' :: (c ++ [' ']))).map trim).filter (fun cell => !cell.isEmpty) = row
  | [], _ => rfl
  | c :: cs, h => by
    have ih := filter_trim_pad cs (fun x hx => h x (by simp [hx]))
    have hc := h c (by simp)
    have hne : c.isEmpty = false := by
      rcases c with _ | ⟨x, c⟩
      · exact absurd rfl hc.1
      · rfl
    simp only [List.map_cons, trim_pad c hc]
    rw [List.filter_cons_of_pos (by simp [hne]), ih]

/-- The cells of the header line without its outer pipes are the header cells. -/
theorem cellsOf_lineInner (row : List JSString) (hne : row ≠ []) (h : ∀ c ∈ row, Cell c) :
    cellsOf (lineInner row) = row := by
  rw [cellsOf, split_lineInner row hne h, filter_trim_pad row h]

/-- The cells of a table line are its cells. -/
theorem cellsOf_mdLine (row : List JSString) (hne : row ≠ []) (h : ∀ c ∈ row, Cell c) :
    cellsOf (mdLine row) = row := by
  have e : mdLine row = [] ++ '|' :: (lineInner row ++ ['|']) := by
    rw [mdLine_eq row hne]
    rfl
  rw [cellsOf, e, split_append _ _ _ (by simp), split_snoc, split_lineInner row hne h]
  have ht : trim [] = [] := rfl
  simp only [List.map_cons, List.map_append, List.map_nil, ht]
  rw [List.filter_cons_of_neg (by simp), List.filter_append, filter_trim_pad row h]
  simp

theorem mdLine_chars (row : List JSString) (h : ∀ c ∈ row, Cell c) :
    ∀ x ∈ mdLine row, x = ' ' ∨ x = '|' ∨ x.isAlphanum = true := by
  induction row with
  | nil => simp [mdLine, cellsText]
  | cons c cs ih =>
    intro x hx
    have ih2 := ih (fun y hy => h y (by simp [hy])) x
    simp only [mdLine, cellsText, List.mem_cons, List.mem_append] at hx ih2
    rcases hx with rfl | rfl | hx | rfl | rfl | hx
    · simp
    · simp
    · exact Or.inr (Or.inr ((h c (by simp)).2 x hx))
    · simp
    · simp
    · exact ih2 (Or.inr hx)

theorem mdLine_no_newline (row : List JSString) (h : ∀ c ∈ row, Cell c) :
    '\n' ∉ mdLine row := by
  intro hm
  rcases mdLine_chars row h _ hm with e | e | e
  · exact absurd e (by decide)
  · exact absurd e (by decide)
  · exact absurd e (by decide)

theorem split_joinLines : ∀ (ls : List JSString), ls ≠ [] → (∀ l ∈ ls, '\n' ∉ l) →
    split '\n' (joinLines ls) = ls
  | [], h, _ => absurd rfl h
  | [l], _, h => by
    simp only [joinLines]
    exact split_noSep _ _ (h l (by simp))
  | l :: l2 :: ls, _, h => by
    have ih := split_joinLines (l2 :: ls) (by simp) (fun x hx => h x (by simp [hx]))
    have e : joinLines (l :: l2 :: ls) = l ++ '\n' :: joinLines (l2 :: ls) := by
      simp [joinLines]
    rw [e, split_append _ _ _ (h l (by simp)), ih]

theorem joinLines_head : ∀ (ls : List JSString) (l : JSString) (a : Char) (t : List Char),
    l = a :: t → (joinLines (l :: ls)).head? = some a
  | [], _, _, _, h => by simp [joinLines, h]
  | _ :: _, _, _, _, h => by simp [joinLines, h]

theorem joinLines_last : ∀ (ls : List JSString) (z : Char), ls ≠ [] →
    (∀ l ∈ ls, l.getLast? = some z) → (joinLines ls).getLast? = some z
  | [], _, h, _ => absurd rfl h
  | [l], z, _, h => by simpa [joinLines] using h l (by simp)
  | l :: l2 :: ls, z, _, h => by
    have ih := joinLines_last (l2 :: ls) z (by simp) (fun x hx => h x (by simp [hx]))
    have e : joinLines (l :: l2 :: ls) = (l ++ ['\n']) ++ joinLines (l2 :: ls) := by
      simp [joinLines]
    have hne : joinLines (l2 :: ls) ≠ [] := by
      intro e0
      rw [e0] at ih
      simp at ih
    rw [e, List.getLast?_append_of_ne_nil _ hne, ih]

/-- The rows that `tableRegex` captures are their own trim. -/
theorem trim_rows (rows : List (List JSString)) (hne : rows ≠ [])
    (h : ∀ row ∈ rows, row ≠ [] ∧ ∀ c ∈ row, Cell c) :
    trim (joinLines (rows.map mdLine)) = joinLines (rows.map mdLine) := by
  apply trim_eq_self
  · rcases rows with _ | ⟨row, rows⟩
    · exact absurd rfl hne
    · rw [List.map_cons, joinLines_head _ (mdLine row) '|' (cellsText row) rfl]
      intro c hc
      simp at hc
      subst hc
      decide
  · rw [joinLines_last (rows.map mdLine) '|' (by simpa using hne)]
    · intro c hc
      simp at hc
      subst hc
      decide
    · intro l hl
      obtain ⟨row, hr, rfl⟩ := List.mem_map.mp hl
      rw [mdLine_eq row (h row hr).1,
        show '|' :: (lineInner row ++ ['|']) = ('|' :: lineInner row) ++ ['|'] from rfl,
        List.getLast?_concat]

theorem foldl_th (hs : List JSString) : ∀ (init : JSString),
    hs.foldl (fun t header => t ++ ("<th>".toList ++ header ++ "</th>".toList)) init =
      init ++ thCells hs := by
  induction hs with
  | nil => simp [thCells]
  | cons h hs ih =>
    intro init
    rw [List.foldl_cons, ih]
    simp [thCells]

theorem foldl_td (row : List JSString) : ∀ (init : JSString),
    row.foldl (fun t cell => t ++ ("<td>".toList ++ cell ++ "</td>".toList)) init =
      init ++ tdCells row := by
  induction row with
  | nil => simp [tdCells]
  | cons h hs ih =>
    intro init
    rw [List.foldl_cons, ih]
    simp [tdCells]

theorem foldl_tr (rows : List (List JSString)) : ∀ (init : JSString),
    rows.foldl (fun t row =>
      (row.foldl (fun t cell => t ++ ("<td>".toList ++ cell ++ "</td>".toList))
        (t ++ "<tr>".toList)) ++ "</tr>".toList) init = init ++ trRows rows := by
  induction rows with
  | nil => simp [trRows]
  | cons r rs ih =>
    intro init
    rw [List.foldl_cons, ih, foldl_td]
    simp [trRows]

/-- The callback of the table replacement, on the two groups of a markdown table. -/
theorem tableCallback_eq (hs : List JSString) (rows : List (List JSString)) (hhs : hs ≠ [])
    (hrows : rows ≠ []) (hh : ∀ c ∈ hs, Cell c)
    (h : ∀ row ∈ rows, row ≠ [] ∧ ∀ c ∈ row, Cell c) (g : Nat → JSString)
    (g1 : g 1 = lineInner hs) (g2 : g 2 = joinLines (rows.map mdLine)) :
    tableCallback g = htmlTable hs rows := by
  have hsplit : split '\n' (joinLines (rows.map mdLine)) = rows.map mdLine :=
    split_joinLines _ (by simpa using hrows) (fun l hl => by
      obtain ⟨row, hr, rfl⟩ := List.mem_map.mp hl
      exact mdLine_no_newline row (h row hr).2)
  have hcells : (rows.map mdLine).map cellsOf = rows := by
    rw [List.map_map]
    conv_rhs => rw [← List.map_id rows]
    apply List.map_congr_left
    intro row hr
    simpa using cellsOf_mdLine row (h row hr).1 (h row hr).2
  simp only [tableCallback, g1, g2, cellsOf_lineInner hs hhs hh, trim_rows rows hrows h, hsplit,
    hcells, foldl_th, foldl_tr, htmlTable]

/-! ## The HTML of a table is left alone by the list steps -/

theorem okLT_append : ∀ (x y : List Char), okLT x = true → okLT y = true → okLT (x ++ y) = true
  | [], _, _, hy => hy
  | [c], y, hx, hy => by
    cases y with
    | nil => simpa using hx
    | cons d r =>
      simp only [okLT, bne_iff_ne, ne_eq] at hx
      simp [okLT, hx, hy]
  | c :: d :: r, y, hx, hy => by
    simp only [okLT, Bool.and_eq_true] at hx
    have ih := okLT_append (d :: r) y hx.2 hy
    simp only [List.cons_append] at ih ⊢
    simp only [okLT, Bool.and_eq_true]
    exact ⟨hx.1, ih⟩

theorem okLT_alnum : ∀ (l : List Char), (∀ c ∈ l, c.isAlphanum = true) → okLT l = true
  | [], _ => rfl
  | [c], h => by
    simpa [okLT] using alnum_ne c '<' (h c (by simp)) (by decide)
  | c :: d :: r, h => by
    have ih := okLT_alnum (d :: r) (fun x hx => h x (by simp [hx]))
    have hc := alnum_ne c '<' (h c (by simp)) (by decide)
    simp [okLT, hc, ih]

theorem okLT_flatten_map {α : Type} (f : α → List Char) : ∀ (as : List α),
    (∀ a ∈ as, okLT (f a) = true) → okLT (as.map f).flatten = true
  | [], _ => rfl
  | a :: as, h => by
    rw [List.map_cons, List.flatten_cons]
    exact okLT_append _ _ (h a (by simp)) (okLT_flatten_map f as (fun x hx => h x (by simp [hx])))

theorem okLT_tdCells (row : List JSString) (h : ∀ c ∈ row, Cell c) : okLT (tdCells row) = true :=
  okLT_flatten_map _ row (fun c hc =>
    okLT_append _ _ (okLT_append _ _ (by decide) (okLT_alnum c (h c hc).2)) (by decide))

theorem okLT_htmlTable (hs : List JSString) (rows : List (List JSString))
    (hh : ∀ c ∈ hs, Cell c) (h : ∀ row ∈ rows, row ≠ [] ∧ ∀ c ∈ row, Cell c) :
    okLT (htmlTable hs rows) = true := by
  have h1 : okLT (thCells hs) = true :=
    okLT_flatten_map _ hs (fun c hc =>
      okLT_append _ _ (okLT_append _ _ (by decide) (okLT_alnum c (hh c hc).2)) (by decide))
  have h2 : okLT (trRows rows) = true :=
    okLT_flatten_map _ rows (fun row hr =>
      okLT_append _ _ (okLT_append _ _ (by decide) (okLT_tdCells row (h row hr).2)) (by decide))
  exact okLT_append _ _ (okLT_append _ _ (okLT_append _ _ (okLT_append _ _ (by decide) h1)
    (by decide)) h2) (by decide)

theorem okLT_suffix : ∀ (pre post : List Char), okLT (pre ++ post) = true → okLT post = true
  | [], _, h => h
  | c :: pre, post, h => by
    apply okLT_suffix pre post
    cases hp : pre ++ post with
    | nil => rfl
    | cons d r =>
      rw [List.cons_append, hp] at h
      simp only [okLT, Bool.and_eq_true] at h
      exact h.2

theorem okLT_noLi (post : List Char) (h : okLT post = true) : ¬ "<li>".toList <+: post := by
  rintro ⟨u, rfl⟩
  simp [okLT] at h

/-- The pattern `(<li>.*<\/li>)` matches only where the text goes on with `<li>`. -/
theorem list_noMatch_open (before post : List Char) (h : ¬ "<li>".toList <+: post) :
    matchAt flagsGS listRe before post = none := by
  rw [matchAt, listRe, m_group, m_cat]
  exact lit_none _ _ _ _ _ _ (by simp) h

theorem mem_flatten_map {α : Type} (f : α → List Char) (Q : Char → Prop) (as : List α)
    (h : ∀ a ∈ as, ∀ c ∈ f a, Q c) : ∀ c ∈ (as.map f).flatten, Q c := by
  intro c hc
  obtain ⟨l, hl, hcl⟩ := List.mem_flatten.mp hc
  obtain ⟨a, ha, rfl⟩ := List.mem_map.mp hl
  exact h a ha c hcl

theorem htmlTable_noTerminator (hs : List JSString) (rows : List (List JSString))
    (hh : ∀ c ∈ hs, Cell c) (h : ∀ row ∈ rows, row ≠ [] ∧ ∀ c ∈ row, Cell c) :
    ∀ c ∈ htmlTable hs rows, isLineTerminator c = false := by
  have tag : ∀ (t : List Char), (∀ c ∈ t, isLineTerminator c = false) → ∀ (m : List Char),
      (∀ c ∈ m, isLineTerminator c = false) → ∀ (u : List Char),
      (∀ c ∈ u, isLineTerminator c = false) → ∀ c ∈ t ++ m ++ u, isLineTerminator c = false := by
    intro t ht m hm u hu c hc
    simp only [List.mem_append] at hc
    rcases hc with (hc | hc) | hc
    · exact ht c hc
    · exact hm c hc
    · exact hu c hc
  have hcell : ∀ (c : JSString), Cell c → ∀ x ∈ c, isLineTerminator x = false :=
    fun c hc x hx => alnum_not_lineTerminator x (hc.2 x hx)
  have h1 : ∀ c ∈ thCells hs, isLineTerminator c = false :=
    mem_flatten_map _ _ hs (fun a ha => tag _ (by decide) _ (hcell a (hh a ha)) _ (by decide))
  have h2 : ∀ c ∈ trRows rows, isLineTerminator c = false :=
    mem_flatten_map _ _ rows (fun row hr => tag _ (by decide) _
      (mem_flatten_map _ _ row (fun a ha =>
        tag _ (by decide) _ (hcell a ((h row hr).2 a ha)) _ (by decide))) _ (by decide))
  intro c hc
  simp only [htmlTable, List.mem_append] at hc
  rcases hc with (((hc | hc) | hc) | hc) | hc
  · exact (by decide : ∀ c ∈ "<table class=\"exercise-table\"><thead><tr>".toList,
      isLineTerminator c = false) c hc
  · exact h1 c hc
  · exact (by decide : ∀ c ∈ "</tr></thead><tbody>".toList, isLineTerminator c = false) c hc
  · exact h2 c hc
  · exact (by decide : ∀ c ∈ "</tbody></table>".toList, isLineTerminator c = false) c hc

/-- The pattern `^- (.*?)$` does not match after a character that ends no line. -/
theorem lineItem_noMatch_inside (p : Char) (b post : List Char)
    (hp : isLineTerminator p = false) : matchAt flagsGM lineItemRe (p :: b) post = none := by
  rw [matchAt, lineItemRe, m_cat, m_bol_cons]
  simp [hp]

/-- The pattern `^- (.*?)$` matches only where the text goes on with `- `. -/
theorem lineItem_noMatch_start (b post : List Char) (h : ¬ "- ".toList <+: post) :
    matchAt flagsGM lineItemRe b post = none := by
  rw [matchAt, lineItemRe, m_cat]
  cases b with
  | nil =>
    rw [m_bol_nil, m_cat]
    exact lit_none _ _ _ _ _ _ (by simp) h
  | cons q b =>
    rw [m_bol_cons]
    split
    · rw [m_cat]
      exact lit_none _ _ _ _ _ _ (by simp) h
    · rfl

theorem needsChar_h1Re : NeedsChar flagsGM (· == '#') h1Re :=
  needsChar_bol_cat (needsChar_cat _ (needsChar_lit flagsGM '#' ' ' []))

theorem needsChar_h2Re : NeedsChar flagsGM (· == '#') h2Re :=
  needsChar_bol_cat (needsChar_cat _ (needsChar_lit flagsGM '#' '#' [' ']))

theorem needsChar_h3Re : NeedsChar flagsGM (· == '#') h3Re :=
  needsChar_bol_cat (needsChar_cat _ (needsChar_lit flagsGM '#' '#' ['#', ' ']))

theorem needsChar_tableRegex : NeedsChar flagsG (· == '|') tableRegex :=
  needsChar_cat _ (needsChar_char _ _)

theorem joinLines_chars (Q : Char → Prop) (hq : Q '\n') : ∀ (ls : List JSString),
    (∀ l ∈ ls, ∀ c ∈ l, Q c) → ∀ c ∈ joinLines ls, Q c
  | [], _, c, hc => by simp [joinLines] at hc
  | [l], h, c, hc => h l (by simp) c (by simpa [joinLines] using hc)
  | l :: l2 :: ls, h, c, hc => by
    have ih := joinLines_chars Q hq (l2 :: ls) (fun x hx => h x (by simp [hx])) c
    have e : joinLines (l :: l2 :: ls) = l ++ '\n' :: joinLines (l2 :: ls) := by
      simp [joinLines]
    rw [e, List.mem_append, List.mem_cons] at hc
    rcases hc with hc | rfl | hc
    · exact h l (by simp) c hc
    · exact hq
    · exact ih hc

/-- A markdown table holds neither `#` nor `*`. -/
theorem mdTable_chars (hs : List JSString) (rows : List (List JSString))
    (hh : ∀ c ∈ hs, Cell c) (h : ∀ row ∈ rows, row ≠ [] ∧ ∀ c ∈ row, Cell c) :
    ∀ c ∈ mdTable hs rows, c ≠ '#' ∧ c ≠ '*' := by
  have hline : ∀ (row : List JSString), (∀ c ∈ row, Cell c) →
      ∀ c ∈ mdLine row, c ≠ '#' ∧ c ≠ '*' := by
    intro row hrow c hc
    rcases mdLine_chars row hrow c hc with rfl | rfl | ha
    · decide
    · decide
    · exact ⟨alnum_ne c _ ha (by decide), alnum_ne c _ ha (by decide)⟩
  unfold mdTable
  refine joinLines_chars (fun c => c ≠ '#' ∧ c ≠ '*') (by decide) _ ?_
  intro l hl
  simp only [List.mem_cons, List.mem_map] at hl
  rcases hl with rfl | rfl | ⟨row, hr, rfl⟩
  · exact hline hs hh
  · intro c hc
    simp only [sepLine, List.mem_cons] at hc
    rcases hc with rfl | hc
    · decide
    · have hd : ∀ c ∈ "---|".toList, c ≠ '#' ∧ c ≠ '*' := by decide
      exact mem_flatten_map (fun _ => "---|".toList) (fun c => c ≠ '#' ∧ c ≠ '*') hs
        (fun _ _ => hd) c hc
  · exact hline row (h row hr).2

/-! ## The export, day by day -/

theorem foldl_exportRow (rows : List (List JSString)) : ∀ (t : JSString),
    rows.foldl exportRow t =
      t ++ writeLines ((rows.filter (fun cells => 4 ≤ cells.length)).map exerciseLine) := by
  induction rows with
  | nil => simp [writeLines]
  | cons cells rows ih =>
    intro t
    rw [List.foldl_cons, ih]
    by_cases hc : 4 ≤ cells.length
    · have hf : (cells :: rows).filter (fun cells => 4 ≤ cells.length) =
          cells :: rows.filter (fun cells => 4 ≤ cells.length) :=
        List.filter_cons_of_pos (by simpa using hc)
      rw [hf]
      simp [exportRow, hc, writeLines, exerciseLine]
    · have hf : (cells :: rows).filter (fun cells => 4 ≤ cells.length) =
          rows.filter (fun cells => 4 ≤ cells.length) :=
        List.filter_cons_of_neg (by simpa using hc)
      rw [hf]
      simp [exportRow, hc]

theorem textOr_nil (a : Option JSString) : textOr a [] = a.getD [] := by
  rcases a with _ | ⟨_ | ⟨c, t⟩⟩ <;> rfl

theorem exportDay_eq (t : JSString) (day : WorkoutDay) :
    exportDay t day = t ++ (writeLines (dayLines day) ++ ['\n']) := by
  rw [exportDay, dayLines, dayTitle, textOr_nil]
  cases h : day.tables.head? with
  | none => simp [writeLines]
  | some rows => simp [writeLines, foldl_exportRow]

theorem foldl_exportDay (days : List WorkoutDay) : ∀ (t : JSString),
    days.foldl exportDay t =
      t ++ (days.map (fun day => writeLines (dayLines day) ++ ['\n'])).flatten := by
  induction days with
  | nil => simp
  | cons day days ih =>
    intro t
    rw [List.foldl_cons, ih, exportDay_eq]
    simp

/-! ## Theorems -/

/-- C7: `formatMessageContent` turns `a**t**b` into `a<strong>t</strong>b` and `a*t*b` into
`a<em>t</em>b`, for all texts `a`, `t`, `b` without `*`, `#`, line terminator, `- ` and
`</li>`. -/
theorem formatMessageContent_emphasis (a t b : JSString) (ha : Plain a) (ht : Plain t)
    (hb : Plain b) :
    formatMessageContent (a ++ "**".toList ++ t ++ "**".toList ++ b) =
        a ++ "<strong>".toList ++ t ++ "</strong>".toList ++ b ∧
    formatMessageContent (a ++ "*".toList ++ t ++ "*".toList ++ b) =
        a ++ "<em>".toList ++ t ++ "</em>".toList ++ b := by
  have e1 : a ++ "**".toList ++ t ++ "**".toList ++ b =
      a ++ ('*' :: '*' :: (t ++ '*' :: '*' :: b)) := by simp
  have e2 : a ++ "*".toList ++ t ++ "*".toList ++ b = a ++ ('*' :: (t ++ '*' :: b)) := by simp
  have c1 := wrapped_clean a t b _ _ ha ht hb (Or.inl rfl) (Or.inl rfl)
  have c2 := wrapped_clean a t b _ _ ha ht hb (Or.inr rfl) (Or.inr rfl)
  constructor
  · rw [e1, formatMessageContent]
    rw [strong_pass a t b ha ht hb,
      replaceAll_needsChar _ needsChar_emRe _ (star_free c1.1),
      formatTail_id _ c1.2.1 c1.2.2.1 c1.2.2.2.1 c1.2.2.2.2]
    simp
  · rw [e2, formatMessageContent]
    rw [strong_pass_single a t b ha ht hb, em_pass a t b ha ht hb,
      formatTail_id _ c2.2.1 c2.2.2.1 c2.2.2.2.1 c2.2.2.2.2]
    simp

/-- C1: a markdown table of non-empty alphanumeric cells, with at least one header cell and
at least one data row of at least one cell, is turned by `formatWorkoutContent` into the
`workout-content` division around the HTML table with one `<th>` per header cell and one
`<tr>` of `<td>` cells per data row, all in order. -/
theorem formatWorkoutContent_table (hs : List JSString) (rows : List (List JSString))
    (hhs : hs ≠ []) (hrows : rows ≠ []) (hh : ∀ c ∈ hs, Cell c)
    (h : ∀ row ∈ rows, row ≠ [] ∧ ∀ c ∈ row, Cell c) :
    formatWorkoutContent (mdTable hs rows) =
      "<div class=\"workout-content\">".toList ++ htmlTable hs rows ++ "</div>".toList := by
  have hin := mdTable_chars hs rows hh h
  have hsharp : ∀ c ∈ mdTable hs rows, (c == '#') = false :=
    fun c hc => by simpa using (hin c hc).1
  have hstar : ∀ c ∈ mdTable hs rows, (c == '*') = false :=
    fun c hc => by simpa using (hin c hc).2
  have hterm := htmlTable_noTerminator hs rows hh h
  have hok := okLT_htmlTable hs rows hh h
  have htab : replaceAll flagsG tableRegex tableCallback (mdTable hs rows) =
      htmlTable hs rows := by
    obtain ⟨bf, hm⟩ := table_match hs rows hhs hrows hh h []
    have hne : mdTable hs rows ≠ [] := by
      rw [mdTable_eq hs rows hrows, mdLine]
      simp
    have hgo := replaceGo_match flagsG tableRegex tableCallback [] (mdTable hs rows) [] _ hne
      (by simpa using hm) rfl
    rw [List.append_nil] at hgo
    rw [replaceAll, hgo, replaceGo_needsChar_nil _ needsChar_tableRegex, List.append_nil]
    exact tableCallback_eq hs rows hhs hrows hh h _ (by simp [capture, List.lookup])
      (by simp [capture, List.lookup])
  rw [formatWorkoutContent, replaceAll_needsChar _ needsChar_h1Re _ hsharp,
    replaceAll_needsChar _ needsChar_h2Re _ hsharp,
    replaceAll_needsChar _ needsChar_h3Re _ hsharp,
    replaceAll_needsChar _ needsChar_strongRe _ hstar,
    replaceAll_needsChar _ needsChar_emRe _ hstar, htab,
    replaceAll_noMatch flagsGM lineItemRe _ (htmlTable hs rows),
    replaceAll_noMatch flagsGS listRe _ (htmlTable hs rows),
    replaceAll_needsChar _ needsChar_newlineRe (htmlTable hs rows)]
  · intro c hc
    have := hterm c hc
    simp only [isLineTerminator, Bool.or_eq_false_iff] at this
    exact this.1.1.1
  · intro pre post hp
    apply list_noMatch_open
    apply okLT_noLi
    apply okLT_suffix pre
    rw [← hp]
    exact hok
  · intro pre post hp
    rcases List.eq_nil_or_concat pre with rfl | ⟨pre2, q, rfl⟩
    · apply lineItem_noMatch_start
      rw [List.nil_append] at hp
      rw [← hp]
      rintro ⟨u, hu⟩
      simp [htmlTable] at hu
    · rw [List.concat_eq_append] at hp ⊢
      rw [List.reverse_append, List.reverse_singleton, List.singleton_append]
      apply lineItem_noMatch_inside
      exact hterm q (by rw [hp]; simp)

/-- C1, at the table with the header cells `A`, `B` and the one data row `x`, `1`. -/
theorem formatWorkoutContent_table_witness :
    (["A".toList, "B".toList] ≠ [] ∧ [["x".toList, "1".toList]] ≠ [] ∧
      (∀ c ∈ ["A".toList, "B".toList], Cell c) ∧
      (∀ row ∈ [["x".toList, "1".toList]], row ≠ [] ∧ ∀ c ∈ row, Cell c)) ∧
    formatWorkoutContent (mdTable ["A".toList, "B".toList] [["x".toList, "1".toList]]) =
      "<div class=\"workout-content\">".toList ++
        htmlTable ["A".toList, "B".toList] [["x".toList, "1".toList]] ++ "</div>".toList :=
  have h1 : ["A".toList, "B".toList] ≠ [] := by decide
  have h2 : [["x".toList, "1".toList]] ≠ [] := by decide
  have h3 : ∀ c ∈ ["A".toList, "B".toList], Cell c := by
    unfold Cell
    decide
  have h4 : ∀ row ∈ [["x".toList, "1".toList]], row ≠ [] ∧ ∀ c ∈ row, Cell c := by
    unfold Cell
    decide
  ⟨⟨h1, h2, h3, h4⟩, formatWorkoutContent_table _ _ h1 h2 h3 h4⟩

/-- C2, at the failing input: under a header of three columns the data row
`| Squat |  | 8 |`, which has three cells with the middle one of spaces only, gets two
`<td>` elements, so that `8` moves under the second header. -/
theorem formatWorkoutContent_blank_cell :
    formatWorkoutContent "| A | B | C |\n|---|---|---|\n| Squat |  | 8 |".toList =
      ("<div class=\"workout-content\"><table class=\"exercise-table\"><thead><tr>" ++
        "<th>A</th><th>B</th><th>C</th></tr></thead><tbody>" ++
        "<tr><td>Squat</td><td>8</td></tr></tbody></table></div>").toList := by
  decide!

/-- C3, at the failing inputs: `renderChatList` with the empty list leaves every chat item
of the sidebar in place, whatever the sidebar held. -/
theorem renderChatList_empty (currentChatId : Option JSString) (sb : Sidebar) :
    (renderChatList currentChatId [] sb).chatItems = sb.chatItems := rfl

/-- C4, at the failing input: with the chats `1` and `12` in the sidebar,
`updateActiveChatInSidebar('1')` marks both items active. -/
theorem updateActive_two_items :
    ((updateActiveChatInSidebar "1".toList
      (renderChatList none [⟨"1".toList, "a".toList⟩, ⟨"12".toList, "b".toList⟩]
        ⟨[], [], "none".toList⟩)).chatItems.map (·.active)) = [true, true] := by
  decide!

/-- C5, at the failing input: the two list lines `- a` and `- b` become one `<li>` that
holds both lines. -/
theorem formatMessageContent_two_items :
    formatMessageContent "- a\n- b".toList = "<ul><li>a<br>- b</li></ul>".toList := by
  decide!

/-- C6, at the failing input: the heading `# T` followed by the line `B` becomes an `<h3>`
that holds both lines. -/
theorem formatMessageContent_heading_line :
    formatMessageContent "# T\nB".toList = "<h3>T<br>B</h3>".toList := by
  decide!

/-- C7, at `a = "x "`, `t = "bold"`, `b = " y"`. -/
theorem formatMessageContent_emphasis_witness :
    (Plain "x ".toList ∧ Plain "bold".toList ∧ Plain " y".toList) ∧
    (formatMessageContent ("x ".toList ++ "**".toList ++ "bold".toList ++ "**".toList ++
        " y".toList) =
        "x ".toList ++ "<strong>".toList ++ "bold".toList ++ "</strong>".toList ++ " y".toList ∧
    formatMessageContent ("x ".toList ++ "*".toList ++ "bold".toList ++ "*".toList ++
        " y".toList) =
        "x ".toList ++ "<em>".toList ++ "bold".toList ++ "</em>".toList ++ " y".toList) :=
  have h1 : Plain "x ".toList := by
    unfold Plain
    decide
  have h2 : Plain "bold".toList := by
    unfold Plain
    decide
  have h3 : Plain " y".toList := by
    unfold Plain
    decide
  ⟨⟨h1, h2, h3⟩, formatMessageContent_emphasis _ _ _ h1 h2 h3⟩

/-- C8, at the failing input: the text line between the two list blocks `- a` and `- b`
ends up inside the one `<ul>` that wraps both. -/
theorem formatWorkoutContent_two_blocks :
    formatWorkoutContent "- a\ntext\n- b".toList =
      ("<div class=\"workout-content\"><ul><li>a</li><br>text<br><li>b</li></ul>" ++
        "</div>").toList := by
  decide!

/-- C9, at the failing inputs: `startNewChat` leaves one welcome message more than the
container held, so two when it held one. -/
theorem startNewChat_welcome_count (cm : ChatManager) :
    (startNewChat cm).chatContainer.count .welcome = cm.chatContainer.count .welcome + 1 := by
  simp only [startNewChat, showWelcomeMessage, clearChat]
  rw [List.count_append, List.count_filter (by rfl)]
  simp

/-- C10, as stated, fails on a day with two exercise tables: the row `Squat`, `3`, `8`,
`60s` of the second table of `twoTableCard` has four cells, and the exported text is not
the one with a line for every table body row of four cells. -/
theorem exportWorkoutAsText_second_table :
    exportWorkoutAsText twoTableCard ≠
      exportWorkoutAsText { twoTableCard with days := [] } ++
        (twoTableCard.days.map
          (fun day => writeLines (claimedDayLines day) ++ ['\n'])).flatten := by
  decide!

/-- C10, amended: after the title and the profile, `exportWorkoutAsText` writes for every
workout day, in order, the day's title line, a line of thirty dashes, one line
`name - sets serie x reps rep (rest)` per row with at least four cells of the first exercise
table of the day, in row order, and an empty line; rows with fewer cells and rows of
further tables give no line. -/
theorem exportWorkoutAsText_days (card : WorkoutCard) :
    exportWorkoutAsText card =
      exportWorkoutAsText { card with days := [] } ++
        (card.days.map (fun day => writeLines (dayLines day) ++ ['\n'])).flatten := by
  simp only [exportWorkoutAsText, foldl_exportDay, List.foldl_nil]

end ChatbotAllenamento
